import Mathlib

/-!
Shallow embedding of the encrypted-document pipeline of the Dokumentenmanager
repository (FastAPI/SQLAlchemy document management app), together with proofs
about its behaviour.  Machine bytes are modelled as `Nat` with explicit
`% 256`, 32-bit words as `Nat` with explicit `% 2^32`; SQLAlchemy rows are
Lean structures and queries are explicit list operations.
-/

namespace DMS

/-! ## Byte and 32-bit word helpers -/

/-- 32-bit truncation. -/
def w32 (n : Nat) : Nat := n % 4294967296

/-- 32-bit modular addition. -/
def wadd (a b : Nat) : Nat := (a + b) % 4294967296

/-- 32-bit exclusive or (exact on in-range inputs). -/
def bxor32 (a b : Nat) : Nat := (a ^^^ b) % 4294967296

/-- Byte-level exclusive or, kept in range by construction. -/
def byteXor (a b : Nat) : Nat := (a ^^^ b) % 256

/-- 32-bit right rotation. -/
def rotr (n x : Nat) : Nat := ((x >>> n) ||| (x <<< (32 - n))) % 4294967296

/-- Big-endian 8-byte encoding of a natural number (an unsigned 64-bit field). -/
def be64 (n : Nat) : List Nat :=
  (List.range 8).map (fun i => n / 2 ^ (8 * (7 - i)) % 256)

/-- Big-endian 4-byte split of a 32-bit word. -/
def wordToBytes (w : Nat) : List Nat :=
  [w / 16777216 % 256, w / 65536 % 256, w / 256 % 256, w % 256]

/-- Big-endian 32-bit words from a byte list whose length is divisible by 4. -/
def bytesToWords32 : List Nat → List Nat
  | a :: b :: c :: d :: rest =>
      (a % 256 * 16777216 + b % 256 * 65536 + c % 256 * 256 + d % 256)
        :: bytesToWords32 rest
  | _ => []

/-- Hex character for a nibble (lowercase, as Python hexdigest). -/
def hexChar (n : Nat) : Char :=
  if n < 10 then Char.ofNat (48 + n) else Char.ofNat (87 + n)

/-- Two-character lowercase hex rendering of one byte. -/
def byteToHex (b : Nat) : List Char := [hexChar (b / 16 % 16), hexChar (b % 16)]

/-- Lowercase hex digest string of a byte list (Python .hexdigest()). -/
def hexDigest (bs : List Nat) : String :=
  String.mk (bs.flatMap byteToHex)

/-! ## SHA-256 (the behaviour of Python hashlib.sha256)

The round constants are obtained by construction, as in FIPS 180-4: the
initial hash words are the fractional bits of the square roots of the first
8 primes and the round constants are the fractional bits of the cube roots
of the first 64 primes. -/

/-- The first 64 prime numbers. -/
def primes64 : List Nat :=
  [2, 3, 5, 7, 11, 13, 17, 19, 23, 29, 31, 37, 41, 43, 47, 53,
   59, 61, 67, 71, 73, 79, 83, 89, 97, 101, 103, 107, 109, 113, 127, 131,
   137, 139, 149, 151, 157, 163, 167, 173, 179, 181, 191, 193, 197, 199, 211, 223,
   227, 229, 233, 239, 241, 251, 257, 263, 269, 271, 277, 281, 283, 293, 307, 311]

/-- Binary search step for the integer cube root. -/
def icbrtGo (n : Nat) : Nat → Nat → Nat → Nat
  | 0, lo, _ => lo
  | f + 1, lo, hi =>
      if hi ≤ lo + 1 then lo
      else
        let mid := (lo + hi) / 2
        if mid * mid * mid ≤ n then icbrtGo n f mid hi else icbrtGo n f lo mid

/-- Integer cube root (for inputs below 2 ^ 108). -/
def icbrt (n : Nat) : Nat := icbrtGo n 64 0 68719476736

/-- SHA-256 initial hash value: fractional square-root bits of the first 8 primes. -/
def sha256H0 : List Nat :=
  (primes64.take 8).map (fun p => Nat.sqrt (p * 2 ^ 64) % 4294967296)

/-- SHA-256 round constants: fractional cube-root bits of the first 64 primes. -/
def sha256K : List Nat :=
  primes64.map (fun p => icbrt (p * 2 ^ 96) % 4294967296)

/-- SHA-256 small sigma 0. -/
def ssig0 (x : Nat) : Nat := bxor32 (rotr 7 x) (bxor32 (rotr 18 x) (x >>> 3))

/-- SHA-256 small sigma 1. -/
def ssig1 (x : Nat) : Nat := bxor32 (rotr 17 x) (bxor32 (rotr 19 x) (x >>> 10))

/-- SHA-256 big sigma 0. -/
def bsig0 (x : Nat) : Nat := bxor32 (rotr 2 x) (bxor32 (rotr 13 x) (rotr 22 x))

/-- SHA-256 big sigma 1. -/
def bsig1 (x : Nat) : Nat := bxor32 (rotr 6 x) (bxor32 (rotr 11 x) (rotr 25 x))

/-- Message-schedule extension: append the next scheduled word `n` times. -/
def sha256Extend (w : List Nat) : Nat → List Nat
  | 0 => w
  | n + 1 =>
      let w' := sha256Extend w n
      let g := fun k => w'.getD (w'.length - k) 0
      w' ++ [wadd (wadd (ssig1 (g 2)) (g 7)) (wadd (ssig0 (g 15)) (g 16))]

/-- One SHA-256 compression round on the 8-word working state. -/
def sha256Round (st : List Nat) (kw : Nat × Nat) : List Nat :=
  match st with
  | [a, b, c, d, e, f, g, h] =>
      let t1 := wadd h (wadd (bsig1 e) (wadd (bxor32 (e &&& f) ((4294967295 ^^^ e) &&& g))
        (wadd kw.1 kw.2)))
      let t2 := wadd (bsig0 a) (bxor32 (a &&& b) (bxor32 (a &&& c) (b &&& c)))
      [wadd t1 t2, a, b, c, wadd d t1, e, f, g]
  | other => other

/-- Compress one 64-byte chunk into the running hash words. -/
def sha256Chunk (h : List Nat) (chunk : List Nat) : List Nat :=
  let w := sha256Extend (bytesToWords32 chunk) 48
  let st := (sha256K.zip w).foldl sha256Round h
  (h.zip st).map (fun p => wadd p.1 p.2)

/-- Split a list into chunks of `n` elements (`n > 0`), with fuel. -/
def chunksGo (n : Nat) : Nat → List Nat → List (List Nat)
  | 0, _ => []
  | _, [] => []
  | f + 1, l => l.take n :: chunksGo n f (l.drop n)

/-- Split a byte list into chunks of `n` bytes. -/
def chunks (n : Nat) (l : List Nat) : List (List Nat) := chunksGo n (l.length + 1) l

/-- SHA-256 padding: 0x80, zeros, and the big-endian 64-bit bit length. -/
def sha256Pad (msg : List Nat) : List Nat :=
  msg ++ 128 :: List.replicate ((64 - (msg.length + 9) % 64) % 64) 0
    ++ be64 (8 * msg.length)

/-- SHA-256 digest of a byte list, as 32 bytes. -/
def sha256 (msg : List Nat) : List Nat :=
  let hw := ((chunks 64 (sha256Pad msg)).foldl sha256Chunk sha256H0)
  hw.flatMap wordToBytes

/-- HMAC-SHA256 (the behaviour of Python hmac.new(key, msg, hashlib.sha256)). -/
def hmacSha256 (key msg : List Nat) : List Nat :=
  let k0 := if key.length > 64 then sha256 key else key
  let kp := k0 ++ List.replicate (64 - k0.length) 0
  sha256 ((kp.map (byteXor 92)) ++ sha256 ((kp.map (byteXor 54)) ++ msg))

/-! ## AES-128 (FIPS-197, by construction over GF(2^8)) -/

/-- Multiplication by x in GF(2^8) with the AES reduction polynomial. -/
def xtime (a : Nat) : Nat :=
  let b := a % 256 * 2
  if b ≥ 256 then (b - 256) ^^^ 27 else b

/-- Iterative GF(2^8) product (Russian-peasant, 8 steps). -/
def gfMulGo : Nat → Nat → Nat → Nat → Nat
  | 0, _, _, acc => acc
  | f + 1, a, b, acc =>
      gfMulGo f (xtime a) (b / 2) (if b % 2 = 1 then byteXor acc a else acc)

/-- GF(2^8) multiplication. -/
def gfMul (a b : Nat) : Nat := gfMulGo 8 (a % 256) (b % 256) 0

/-- GF(2^8) power. -/
def gfPow (a : Nat) : Nat → Nat
  | 0 => 1
  | n + 1 => gfMul a (gfPow a n)

/-- GF(2^8) multiplicative inverse (0 maps to 0), as a^254. -/
def gfInv (b : Nat) : Nat := if b % 256 = 0 then 0 else gfPow (b % 256) 254

/-- 8-bit left rotation. -/
def rotl8 (n x : Nat) : Nat := (((x % 256) <<< n) ||| ((x % 256) >>> (8 - n))) % 256

/-- The AES S-box: affine transform of the field inverse. -/
def sbox (b : Nat) : Nat :=
  let x := gfInv b
  byteXor (byteXor (byteXor (rotl8 1 x) (rotl8 2 x)) (byteXor (rotl8 3 x) (rotl8 4 x)))
    (byteXor x 99)

/-- Inverse of the S-box affine transform. -/
def invAffine (y : Nat) : Nat :=
  byteXor (byteXor (rotl8 1 y) (rotl8 3 y)) (byteXor (rotl8 6 y) 5)

/-- The inverse AES S-box. -/
def invSbox (b : Nat) : Nat := gfInv (invAffine b)

/-- AES round-constant byte for round index `i` (0-based). -/
def rconByte : Nat → Nat
  | 0 => 1
  | n + 1 => xtime (rconByte n)

/-- One word (4 bytes) rotated left by one byte. -/
def rotWord (w : List Nat) : List Nat := w.drop 1 ++ w.take 1

/-- S-box applied to each byte of a word. -/
def subWord (w : List Nat) : List Nat := w.map sbox

/-- Key-expansion: append `n` further 4-byte words to the initial 4. -/
def expandGo : Nat → List (List Nat) → List (List Nat)
  | 0, ws => ws
  | n + 1, ws =>
      let ws' := expandGo n ws
      let i := ws'.length
      let prev := ws'.getD (i - 1) []
      let t :=
        if i % 4 = 0 then
          List.zipWith byteXor (subWord (rotWord prev)) [rconByte (i / 4 - 1), 0, 0, 0]
        else prev
      ws' ++ [List.zipWith byteXor (ws'.getD (i - 4) []) t]

/-- The 11 AES-128 round keys (16 bytes each) from a 16-byte key. -/
def keySchedule (key : List Nat) : List (List Nat) :=
  let ws := expandGo 40 ((chunks 4 key).map (fun w => w.map (· % 256)))
  (List.range 11).map (fun r => ((ws.drop (4 * r)).take 4).flatMap (fun w => w))

/-- SubBytes on a 16-byte state. -/
def subBytes (s : List Nat) : List Nat := s.map sbox

/-- InvSubBytes on a 16-byte state. -/
def invSubBytes (s : List Nat) : List Nat := s.map invSbox

/-- ShiftRows: state byte index is row + 4*column (column-major order). -/
def shiftRows (s : List Nat) : List Nat :=
  (List.range 16).map (fun i => s.getD (i % 4 + 4 * ((i / 4 + i % 4) % 4)) 0)

/-- InvShiftRows. -/
def invShiftRows (s : List Nat) : List Nat :=
  (List.range 16).map (fun i => s.getD (i % 4 + 4 * ((i / 4 + 4 - i % 4) % 4)) 0)

/-- MixColumns on one 4-byte column. -/
def mixColumn (col : List Nat) : List Nat :=
  match col with
  | [a, b, c, d] =>
      [byteXor (byteXor (gfMul 2 a) (gfMul 3 b)) (byteXor c d),
       byteXor (byteXor a (gfMul 2 b)) (byteXor (gfMul 3 c) d),
       byteXor (byteXor a b) (byteXor (gfMul 2 c) (gfMul 3 d)),
       byteXor (byteXor (gfMul 3 a) b) (byteXor c (gfMul 2 d))]
  | other => other

/-- InvMixColumns on one 4-byte column. -/
def invMixColumn (col : List Nat) : List Nat :=
  match col with
  | [a, b, c, d] =>
      [byteXor (byteXor (gfMul 14 a) (gfMul 11 b)) (byteXor (gfMul 13 c) (gfMul 9 d)),
       byteXor (byteXor (gfMul 9 a) (gfMul 14 b)) (byteXor (gfMul 11 c) (gfMul 13 d)),
       byteXor (byteXor (gfMul 13 a) (gfMul 9 b)) (byteXor (gfMul 14 c) (gfMul 11 d)),
       byteXor (byteXor (gfMul 11 a) (gfMul 13 b)) (byteXor (gfMul 9 c) (gfMul 14 d))]
  | other => other

/-- MixColumns on the full state. -/
def mixColumns (s : List Nat) : List Nat := (chunks 4 s).flatMap mixColumn

/-- InvMixColumns on the full state. -/
def invMixColumns (s : List Nat) : List Nat := (chunks 4 s).flatMap invMixColumn

/-- AES-128 block encryption of 16 bytes. -/
def aesEncryptBlock (key block : List Nat) : List Nat :=
  let rks := keySchedule key
  let s0 := List.zipWith byteXor (block.map (· % 256)) (rks.getD 0 [])
  let smid := (List.range 9).foldl
    (fun s r => List.zipWith byteXor (mixColumns (shiftRows (subBytes s))) (rks.getD (r + 1) []))
    s0
  List.zipWith byteXor (shiftRows (subBytes smid)) (rks.getD 10 [])

/-- AES-128 block decryption of 16 bytes. -/
def aesDecryptBlock (key block : List Nat) : List Nat :=
  let rks := keySchedule key
  let s0 := List.zipWith byteXor (block.map (· % 256)) (rks.getD 10 [])
  let smid := (List.range 9).foldl
    (fun s r => invMixColumns (List.zipWith byteXor (invSubBytes (invShiftRows s)) (rks.getD (9 - r) [])))
    s0
  List.zipWith byteXor (invSubBytes (invShiftRows smid)) (rks.getD 0 [])

/-! ## PKCS7, CBC mode, url-safe base64 -/

/-- PKCS7 padding to 16-byte blocks. -/
def pkcs7pad (p : List Nat) : List Nat :=
  let n := 16 - p.length % 16
  p.map (· % 256) ++ List.replicate n n

/-- PKCS7 unpadding; none when the padding is malformed. -/
def pkcs7unpad (p : List Nat) : Option (List Nat) :=
  match p.getLast? with
  | none => none
  | some n =>
      if 1 ≤ n ∧ n ≤ 16 ∧ n ≤ p.length ∧ (p.drop (p.length - n)).all (· = n) then
        some (p.take (p.length - n))
      else none

/-- CBC encryption over 16-byte chunks. -/
def cbcEncryptGo (key : List Nat) : List Nat → List (List Nat) → List Nat
  | _, [] => []
  | prev, b :: rest =>
      let c := aesEncryptBlock key (List.zipWith byteXor b prev)
      c ++ cbcEncryptGo key c rest

/-- AES-128-CBC encryption (input already padded to 16-byte blocks). -/
def cbcEncrypt (key iv p : List Nat) : List Nat :=
  cbcEncryptGo key (iv.map (· % 256)) (chunks 16 p)

/-- CBC decryption over 16-byte chunks. -/
def cbcDecryptGo (key : List Nat) : List Nat → List (List Nat) → List Nat
  | _, [] => []
  | prev, b :: rest =>
      List.zipWith byteXor (aesDecryptBlock key b) prev ++ cbcDecryptGo key b rest

/-- AES-128-CBC decryption. -/
def cbcDecrypt (key iv c : List Nat) : List Nat :=
  cbcDecryptGo key (iv.map (· % 256)) (chunks 16 c)

/-- ASCII byte of the url-safe base64 alphabet at index `n < 64`. -/
def b64Val (n : Nat) : Nat :=
  if n < 26 then 65 + n
  else if n < 52 then 97 + n - 26
  else if n < 62 then 48 + n - 52
  else if n = 62 then 45
  else 95

/-- Index of an ASCII byte in the url-safe base64 alphabet. -/
def b64IndexB (b : Nat) : Option Nat :=
  if 65 ≤ b ∧ b ≤ 90 then some (b - 65)
  else if 97 ≤ b ∧ b ≤ 122 then some (b - 97 + 26)
  else if 48 ≤ b ∧ b ≤ 57 then some (b - 48 + 52)
  else if b = 45 then some 62
  else if b = 95 then some 63
  else none

/-- Url-safe base64 encoding with '=' (61) padding, as ASCII byte values. -/
def b64Encode : List Nat → List Nat
  | [] => []
  | [a] =>
      [b64Val (a % 256 / 4), b64Val (a % 256 % 4 * 16), 61, 61]
  | [a, b] =>
      [b64Val (a % 256 / 4), b64Val (a % 256 % 4 * 16 + b % 256 / 16),
       b64Val (b % 256 % 16 * 4), 61]
  | a :: b :: c :: rest =>
      [b64Val (a % 256 / 4), b64Val (a % 256 % 4 * 16 + b % 256 / 16),
       b64Val (b % 256 % 16 * 4 + c % 256 / 64), b64Val (c % 256 % 64)]
        ++ b64Encode rest

/-- Decode base64 groups of four symbols; '=' (61) padding is accepted only
in the final group. -/
def b64DecodeGroups : List Nat → Option (List Nat)
  | c1 :: c2 :: c3 :: c4 :: rest => do
      let v1 ← b64IndexB c1
      let v2 ← b64IndexB c2
      if c3 = 61 then
        if c4 = 61 ∧ rest = [] then pure [v1 * 4 + v2 / 16] else none
      else do
        let v3 ← b64IndexB c3
        if c4 = 61 then
          if rest = [] then pure [v1 * 4 + v2 / 16, v2 % 16 * 16 + v3 / 4] else none
        else do
          let v4 ← b64IndexB c4
          let bs ← b64DecodeGroups rest
          pure ([v1 * 4 + v2 / 16, v2 % 16 * 16 + v3 / 4, v3 % 4 * 64 + v4] ++ bs)
  | [] => some []
  | _ => none

/-- Url-safe base64 decoding as Python base64.urlsafe_b64decode: bytes outside
the alphabet are discarded first, then the remaining length must be a
multiple of four. -/
def b64Decode (s : List Nat) : Option (List Nat) :=
  b64DecodeGroups (s.filter (fun c => (b64IndexB c).isSome || c = 61))

/-! ## The Fernet envelope (the behaviour of cryptography.fernet.Fernet)

A Fernet key is 32 bytes: the first 16 are the HMAC signing key, the last 16
the AES-128 encryption key.  A token is
0x80 || timestamp(8, big-endian) || IV(16) || AES-CBC ciphertext || HMAC(32),
url-safe base64 encoded.  Encryption draws a fresh random IV per call; the
call context `CallCtx` carries the current time and that fresh IV. -/

/-- Per-call environment of a Fernet encryption: clock value and the 16 fresh
random IV bytes drawn by this call. -/
structure CallCtx where
  ts : Nat
  iv : List Nat
deriving Repr, DecidableEq

/-- The raw (pre-base64) Fernet token. -/
def fernetTokenRaw (signKey encKey : List Nat) (ts : Nat) (iv p : List Nat) : List Nat :=
  let core := 128 :: (be64 ts ++ iv.map (· % 256) ++ cbcEncrypt encKey iv (pkcs7pad p))
  core ++ hmacSha256 signKey core

/-- Fernet decryption: base64-decode, check shape and HMAC, CBC-decrypt, unpad. -/
def fernetDecrypt (signKey encKey : List Nat) (token : List Nat) : Option (List Nat) := do
  let raw ← b64Decode token
  if raw.length < 73 then none
  else if raw.getD 0 0 ≠ 128 then none
  else if (raw.length - 57) % 16 ≠ 0 then none
  else
    let body := raw.take (raw.length - 32)
    let tag := raw.drop (raw.length - 32)
    if tag ≠ hmacSha256 signKey body then none
    else pkcs7unpad (cbcDecrypt encKey ((body.drop 9).take 16) (body.drop 25))

/-! ## app/utils/crypto_utils.py

The module-level fernet instance is built from settings.files_fernet_key; we
thread its two 16-byte halves (`sk`, `ek`) and the HMAC secret explicitly. -/

/-- fernet.encrypt(data): a fresh-IV Fernet token (source line: return
fernet.encrypt(data)). -/
def encrypt_bytes (sk ek : List Nat) (ctx : CallCtx) (data : List Nat) : List Nat :=
  b64Encode (fernetTokenRaw sk ek ctx.ts ctx.iv data)

/-- fernet.decrypt(token); none models the InvalidToken exception. -/
def decrypt_bytes (sk ek : List Nat) (token : List Nat) : Option (List Nat) :=
  fernetDecrypt sk ek token

/-- decrypt_text: on any decryption failure the original value is returned
unchanged (legacy plaintext rows).  UTF-8 decoding is modelled on the ASCII
plane; a non-ASCII result is treated as a decode failure and falls back. -/
def decrypt_text (sk ek : List Nat) (token : String) : String :=
  match fernetDecrypt sk ek (token.toList.map Char.toNat) with
  | some bs => if bs.all (· < 128) then String.mk (bs.map Char.ofNat) else token
  | none => token

/-- compute_integrity_tag: HMAC-SHA256 hexdigest over the plaintext, keyed
with the configured secret. -/
def compute_integrity_tag (secret data : List Nat) : String :=
  hexDigest (hmacSha256 secret data)

/-- One call of compute_integrity_tag in a given call context: the source
reads no per-call randomness or clock, so the context is unused. -/
def compute_integrity_tag_call (_ctx : CallCtx) (secret data : List Nat) : String :=
  compute_integrity_tag secret data

/-! ## app/utils/files.py -/

/-- save_stream_to_file: writes the stream bytes to the target path and
returns the byte count; result is (file content written, total). -/
def save_stream_to_file (fileObj : List Nat) : List Nat × Nat :=
  (fileObj, fileObj.length)

/-- sha256_of_stream: plain (unkeyed) SHA-256 hexdigest of the stream. -/
def sha256_of_stream (fobj : List Nat) : String :=
  hexDigest (sha256 fobj)

/-! ## Python string helpers used by the services -/

/-- Split a character list at every separator (Python str.split(sep)):
empty pieces are kept. -/
def splitChars (p : Char → Bool) : List Char → List (List Char)
  | [] => [[]]
  | c :: rest =>
      let r := splitChars p rest
      if p c then [] :: r
      else (c :: r.headD []) :: r.tail

/-- Python str.lower() (ASCII plane). -/
def pyLower (s : String) : String := String.mk (s.toList.map Char.toLower)

/-- Python str.strip(chars): remove leading and trailing characters of the set. -/
def pyStripChars (cs : List Char) (s : String) : String :=
  let l := s.toList.dropWhile (fun c => cs.contains c)
  String.mk ((l.reverse.dropWhile (fun c => cs.contains c)).reverse)

/-- Python str.strip(): remove leading and trailing whitespace. -/
def pyStripWs (s : String) : String :=
  let l := s.toList.dropWhile Char.isWhitespace
  String.mk ((l.reverse.dropWhile Char.isWhitespace).reverse)

/-- Python str.split() with no argument: split on whitespace runs. -/
def pySplitWs (s : String) : List String :=
  ((splitChars Char.isWhitespace s.toList).map String.mk).filter (fun t => t ≠ "")

/-- The punctuation set stripped from token edges:
. , ; : ! ? ( ) [ ] braces " apostrophe backquote < > | / backslash + - = _ -/
def stripChars : List Char :=
  [46, 44, 59, 58, 33, 63, 40, 41, 91, 93, 123, 125, 34, 39, 96, 60, 62,
   124, 47, 92, 43, 45, 61, 95].map Char.ofNat

/-- Shared tokenizer shape of document_service._tokenize and
auto_tagging._tokenize: lowercase, split on whitespace, strip punctuation,
drop tokens shorter than 3 characters and stopwords. -/
def tokenizeWith (stop : List String) (text : String) : List String :=
  if text = "" then []
  else
    (pySplitWs (pyLower text)).filterMap (fun t =>
      let t' := pyStripChars stripChars t
      if t' = "" then none
      else if t'.length < 3 then none
      else if stop.contains t' then none
      else some t')

/-- SIMPLE_STOPWORDS of app/services/document_service.py. -/
def docServiceStopwords : List String :=
  ["der", "die", "das", "und", "oder", "ein", "eine", "einer", "einem", "einen",
   "den", "im", "in", "ist", "sind", "war", "waren", "von", "mit", "auf", "für",
   "an", "am", "als", "zu", "zum", "zur", "bei", "aus", "dem",
   "the", "a", "an", "and", "or", "of", "to", "in", "on", "for", "at", "by",
   "this", "that", "these", "those", "it", "its", "be", "was", "were", "are"]

/-- SIMPLE_STOPWORDS of app/services/auto_tagging.py (a strict superset). -/
def autoTaggingStopwords : List String :=
  docServiceStopwords ++
  ["sie", "ihre", "ihr", "ihren", "ihnen",
   "wir", "uns", "man",
   "diese", "dieser", "dieses", "diesem", "diesen"]

/-! ## app/models: Document, DocumentVersion, Category rows -/

/-- documents row (app/models/document.py).  Note: the schema has an
is_deleted flag and a created_at timestamp but no deletion timestamp. -/
structure Document where
  id : Nat
  owner_user_id : Nat
  category_id : Option Nat := none
  filename : String
  storage_path : String := ""
  original_filename : Option String := none
  stored_name : Option String := none
  size_bytes : Nat := 0
  checksum_sha256 : Option String := none
  mime_type : Option String := none
  ocr_text : Option String := none
  is_deleted : Bool := false
  created_at : Option Nat := none
deriving Repr, DecidableEq

/-- document_versions row (app/models/document_version.py). -/
structure DocumentVersion where
  id : Nat := 0
  document_id : Nat
  version_number : Nat
  storage_path : String
  checksum_sha256 : Option String := none
  size_bytes : Nat := 0
  mime_type : Option String := none
  note : Option String := none
  created_at : Option Nat := none
  updated_at : Option Nat := none
deriving Repr, DecidableEq

/-- categories row (app/models/category.py); keywords is a free text field. -/
structure Category where
  id : Nat
  user_id : Nat
  name : String
  keywords : Option String := none
deriving Repr, DecidableEq

/-- Python `x or None` on an optional string column value. -/
def orNone (o : Option String) : Option String :=
  match o with
  | some s => if s = "" then none else some s
  | none => none

/-- Truthiness of an optional string (None and "" are falsy). -/
def optTruthy (o : Option String) : Bool := o.getD "" ≠ ""

/-! ## app/repositories/document_repo.py -/

/-- One document together with its version rows. -/
structure DocState where
  doc : Document
  versions : List DocumentVersion
deriving Repr, DecidableEq

/-- create_document_with_version: insert the Document and mirror its initial
fields into version 1; note defaults to "Initial upload".  (The merged
variant also stores original_filename and stored_name.) -/
def create_document_with_version (doc_id user_id : Nat) (filename storage_path : String)
    (size_bytes : Nat) (checksum_sha256 : Option String) (mime_type : Option String)
    (note : Option String) (original_filename stored_name : Option String) : DocState :=
  let doc : Document :=
    { id := doc_id
      owner_user_id := user_id
      filename := filename
      storage_path := storage_path
      size_bytes := size_bytes
      checksum_sha256 := orNone checksum_sha256
      mime_type := orNone mime_type
      original_filename := orNone original_filename
      stored_name := orNone stored_name }
  let ver : DocumentVersion :=
    { document_id := doc_id
      version_number := 1
      storage_path := storage_path
      size_bytes := size_bytes
      checksum_sha256 := orNone checksum_sha256
      mime_type := orNone mime_type
      note := some ((fun n => if n = "" then "Initial upload" else n) (note.getD "")) }
  { doc := doc, versions := [ver] }

/-- next_version_number: coalesce(max(version_number), 0) + 1 over the
document's versions. -/
def next_version_number (versions : List DocumentVersion) (doc_id : Nat) : Nat :=
  (((versions.filter (fun v => v.document_id == doc_id)).map
    (fun v => v.version_number)).foldl max 0) + 1

/-- add_version: insert the next-numbered version row and overwrite the
document's mirrored storage/size/checksum/mime fields. -/
def add_version (st : DocState) (storage_path : String) (size_bytes : Nat)
    (checksum_sha256 : Option String) (mime_type : Option String)
    (note : Option String) : DocState × DocumentVersion :=
  let vnum := next_version_number st.versions st.doc.id
  let ver : DocumentVersion :=
    { document_id := st.doc.id
      version_number := vnum
      storage_path := storage_path
      size_bytes := size_bytes
      checksum_sha256 := orNone checksum_sha256
      mime_type := orNone mime_type
      note := note }
  ({ doc := { st.doc with
        storage_path := storage_path
        size_bytes := size_bytes
        checksum_sha256 := orNone checksum_sha256
        mime_type := orNone mime_type }
     versions := st.versions ++ [ver] }, ver)

/-- The UPDATE condition of soft_delete_document: owner's own, not yet
deleted document. -/
def softDeleteHit (doc_id user_id : Nat) (d : Document) : Bool :=
  d.id == doc_id && d.owner_user_id == user_id && !d.is_deleted

/-- soft_delete_document: one conditional UPDATE setting is_deleted = true on
the owner's not-yet-deleted row; returns (new table, rowcount > 0). -/
def soft_delete_document (docs : List Document) (doc_id user_id : Nat) :
    List Document × Bool :=
  (docs.map (fun d => if softDeleteHit doc_id user_id d then { d with is_deleted := true } else d),
   (docs.filter (softDeleteHit doc_id user_id)).length > 0)

/-! ## Duplicate lookup (src/_merge_backup/document_repo.py and
app/services/duplicate_service.py) -/

/-- The name+size block: lower(filename) equality and exact size equality. -/
def nameSizeMatch (fname : String) (size_val : Option Nat) (d : Document) : Bool :=
  pyLower d.filename == pyLower fname && some d.size_bytes == size_val

/-- The WHERE clause of get_by_sha_or_name_size: the OR of the sha condition
and the name+size block. -/
def dupMatchExpr (sha fname : String) (size_bytes : Option Nat) (d : Document) : Bool :=
  (sha ≠ "" && d.checksum_sha256 == some sha) ||
  (fname ≠ "" && size_bytes.isSome && nameSizeMatch fname size_bytes d)

/-- ORDER BY id DESC LIMIT 1 over a candidate row list. -/
def maxById (cands : List Document) : Option Document :=
  cands.foldl (fun acc d =>
    match acc with
    | none => some d
    | some m => if d.id > m.id then some d else some m) none

/-- get_by_sha_or_name_size: one SELECT whose WHERE is the OR of the sha
condition and the name+size block, ordered by id descending, limit 1. -/
def get_by_sha_or_name_size (docs : List Document) (user_id : Nat)
    (sha256v filename : Option String) (size_bytes : Option Nat) : Option Document :=
  let sha := pyStripWs (sha256v.getD "")
  let fname := pyStripWs (filename.getD "")
  if sha = "" ∧ (fname = "" ∨ size_bytes = none) then none
  else
    maxById (docs.filter (fun d =>
      d.owner_user_id == user_id && !d.is_deleted && dupMatchExpr sha fname size_bytes d))

/-- find_duplicate: classify the single row found by get_by_sha_or_name_size;
reason "sha256" iff that row's checksum equals the normalized candidate tag. -/
def find_duplicate (docs : List Document) (user_id : Nat)
    (sha256v name : Option String) (size : Option Nat) :
    Option Document × Option String :=
  match get_by_sha_or_name_size docs user_id sha256v name size with
  | none => (none, none)
  | some doc =>
      let sha_norm := pyStripWs (sha256v.getD "")
      if sha_norm ≠ "" ∧ doc.checksum_sha256 = some sha_norm then (some doc, some "sha256")
      else (some doc, some "name_size")

/-! ## app/services/auto_tagging.py -/

/-- Comma-split with strip, dropping empty pieces (the raw_keywords and
existing_keywords list comprehensions). -/
def splitCommaStrip (s : String) : List String :=
  ((splitChars (fun c => c = ',') s.toList).map String.mk).filterMap (fun k =>
    let k' := pyStripWs k
    if k' = "" then none else some k')

/-- _score_keyword: frequency plus length bonus minus digit and short-token
penalties.  All score values are exact halves (the only fractional constant
is the 1.5 digit penalty), so the embedding stores the score DOUBLED as an
integer: 2*frequency, +4 / +2 length bonus, -3 digit penalty, -2 short
penalty.  Signs, comparisons and the sort order are unchanged by the uniform
factor of two. -/
def score_keyword (token : String) (count : Nat) : Int :=
  let s0 : Int := 2 * count
  let s1 := if token.length ≥ 10 then s0 + 4 else if token.length ≥ 7 then s0 + 2 else s0
  let s2 := if token.toList.any Char.isDigit then s1 - 3 else s1
  if token.length ≤ 3 then s2 - 2 else s2

/-- The per-category score loop of suggest_category_for_document: 2 points
per keyword token in the document token set, else 1 point when the keyword
token has length at least 5 and is a prefix of some document token. -/
def categoryScore (docTokens kwTokens : List String) : Nat :=
  kwTokens.foldl (fun score kw =>
    if docTokens.contains kw then score + 2
    else if kw.length ≥ 5 && docTokens.any (fun dt => kw.toList.isPrefixOf dt.toList) then
      score + 1
    else score) 0

/-- suggest_category_for_document: best-scoring category of the user with a
strictly greater score than all earlier ones, returned when the best score
reaches min_score. -/
def suggest_category_for_document (cats : List Category) (user_id : Nat)
    (ocr_plaintext : String) (min_score : Nat) : Option Category :=
  if pyStripWs ocr_plaintext = "" then none
  else
    let doc_tokens := tokenizeWith autoTaggingStopwords ocr_plaintext
    if doc_tokens = [] then none
    else
      let best := (cats.filter (fun c => c.user_id == user_id)).foldl
        (fun (acc : Option Category × Nat) cat =>
          if !optTruthy cat.keywords then acc
          else
            let raw_keywords := splitCommaStrip (cat.keywords.getD "")
            if raw_keywords = [] then acc
            else
              let kw_tokens := raw_keywords.flatMap (tokenizeWith autoTaggingStopwords)
              if kw_tokens = [] then acc
              else
                let score := categoryScore doc_tokens kw_tokens
                if score > acc.2 then (some cat, score) else acc)
        (none, 0)
      if best.1 = none ∨ best.2 < min_score then none else best.1

/-- A collections.Counter over tokens: insertion-ordered (token, count) pairs. -/
def counterUpdate (c : List (String × Nat)) (tokens : List String) : List (String × Nat) :=
  tokens.foldl (fun acc t =>
    if acc.any (fun p => p.1 == t) then
      acc.map (fun p => if p.1 == t then (p.1, p.2 + 1) else p)
    else acc ++ [(t, 1)]) c

/-- Lexicographic code-point comparison of character lists (Python string
less-than). -/
def strLtB : List Char → List Char → Bool
  | [], [] => false
  | [], _ :: _ => true
  | _ :: _, [] => false
  | c :: cs, d :: ds =>
      if c.toNat < d.toNat then true
      else if d.toNat < c.toNat then false
      else strLtB cs ds

/-- Python string less-or-equal: not (b < a). -/
def pyStrLe (a b : String) : Prop := strLtB b.toList a.toList = false

instance : DecidableRel pyStrLe := fun a b => by
  unfold pyStrLe; infer_instance

/-- Sort order of the keyword suggestions: score descending, then frequency
descending, then token ascending (the key (-score, -count, token)). -/
def kwSuggLE (a b : String × Int × Nat) : Prop :=
  a.2.1 > b.2.1 ∨ (a.2.1 = b.2.1 ∧ (a.2.2 > b.2.2 ∨ (a.2.2 = b.2.2 ∧ pyStrLe a.1 b.1)))

instance : DecidableRel kwSuggLE := fun a b => by
  unfold kwSuggLE; infer_instance

/-- CategoryKeywordSuggestionOut payload. -/
structure KeywordSuggestionOut where
  category_id : Nat
  category_name : String
  existing_keywords : List String
  suggested_keywords : List String
deriving Repr, DecidableEq

/-- The document query of suggest_keywords_for_category: owner, category and
ocr_text present.  Soft-deleted documents are not excluded. -/
def kwDocsWithOcr (docs : List Document) (user_id category_id : Nat) : List Document :=
  docs.filter (fun d =>
    d.owner_user_id == user_id && d.category_id == some category_id && d.ocr_text.isSome)

/-- existing_keywords of the category. -/
def kwExisting (category : Category) : List String :=
  if optTruthy category.keywords then splitCommaStrip (category.keywords.getD "") else []

/-- The token-frequency Counter over the decrypted OCR text of a document
list. -/
def kwCounterOver (sk ek : List Nat) (ds : List Document) : List (String × Nat) :=
  ds.foldl (fun c d =>
    match d.ocr_text with
    | none => c
    | some enc =>
        if enc = "" then c
        else counterUpdate c (tokenizeWith autoTaggingStopwords (decrypt_text sk ek enc))) []

/-- The Counter of suggest_keywords_for_category. -/
def kwCounter (sk ek : List Nat) (docs : List Document) (user_id category_id : Nat) :
    List (String × Nat) :=
  kwCounterOver sk ek (kwDocsWithOcr docs user_id category_id)

/-- Scoring and filtering of counted tokens against a category's existing
keywords: existing keywords (case-insensitively) and non-positive scores are
dropped. -/
def kwScoredOver (category : Category) (counter : List (String × Nat)) :
    List (String × Int × Nat) :=
  counter.filterMap (fun p =>
    if ((kwExisting category).map pyLower).contains (pyLower p.1) then none
    else
      let score := score_keyword p.1 p.2
      if score ≤ 0 then none else some (p.1, score, p.2))

/-- Scored candidate tokens of suggest_keywords_for_category. -/
def kwScored (sk ek : List Nat) (category : Category) (docs : List Document)
    (user_id category_id : Nat) : List (String × Int × Nat) :=
  kwScoredOver category (kwCounter sk ek docs user_id category_id)

/-- Candidates sorted by (score desc, frequency desc, token asc). -/
def kwSorted (sk ek : List Nat) (category : Category) (docs : List Document)
    (user_id category_id : Nat) : List (String × Int × Nat) :=
  List.insertionSort kwSuggLE (kwScored sk ek category docs user_id category_id)

/-- suggest_keywords_for_category.  Note the document query filters on owner,
category_id and ocr_text only — soft-deleted documents are not excluded.
none models the ValueError for a missing/foreign category. -/
def suggest_keywords_for_category (sk ek : List Nat) (cats : List Category)
    (docs : List Document) (user_id category_id top_n : Nat) :
    Option KeywordSuggestionOut :=
  match cats.find? (fun c => c.id == category_id && c.user_id == user_id) with
  | none => none
  | some category =>
      some { category_id := category.id
             category_name := category.name
             existing_keywords := kwExisting category
             suggested_keywords :=
               ((kwSorted sk ek category docs user_id category_id).take top_n).map
                 (fun t => t.1) }

/-! ## app/services/document_service.py: search -/

/-- Non-overlapping substring occurrence counting (Python str.count). -/
def substrCountGo (need : List Char) : Nat → List Char → Nat
  | 0, _ => 0
  | _, [] => 0
  | f + 1, c :: rest =>
      if need.isPrefixOf (c :: rest) then 1 + substrCountGo need f ((c :: rest).drop need.length)
      else substrCountGo need f rest

/-- Python hay.count(need) for nonempty need. -/
def substrCount (hay need : String) : Nat :=
  if need = "" then 0 else substrCountGo need.toList (hay.length + 1) hay.toList

/-- The hit-score loop of search_documents_advanced: per query token, 3 times
the title occurrence count plus the body occurrence count. -/
def advWeightedHits (title_l body_l : String) (toks : List String) : Nat :=
  toks.foldl (fun acc tok => acc + substrCount title_l tok * 3 + substrCount body_l tok) 0

/-- Last-updated instant of a document: created_at or any version's
updated_at/created_at, whichever is latest; epoch 0 when absent. -/
def docLastUpd (d : Document) (vers : List DocumentVersion) : Nat :=
  let last := vers.foldl (fun acc v =>
    let cand := match v.updated_at with
      | some t => some t
      | none => v.created_at
    match cand, acc with
    | none, _ => acc
    | some t, none => some t
    | some t, some l => if t > l then some t else some l) d.created_at
  last.getD 0

/-- Scored search result row prior to packing. -/
structure SearchEntry where
  doc : Document
  score : Nat
  last_upd : Nat
deriving Repr, DecidableEq

/-- Lexicographic greater-or-equal on (score, last_updated, id). -/
def tripleGE (a b : Nat × Nat × Nat) : Prop :=
  a.1 > b.1 ∨ (a.1 = b.1 ∧ (a.2.1 > b.2.1 ∨ (a.2.1 = b.2.1 ∧ a.2.2 ≥ b.2.2)))

instance : DecidableRel tripleGE := fun a b => by
  unfold tripleGE; infer_instance

/-- Sort key of the ranked lists. -/
def searchKey (e : SearchEntry) : Nat × Nat × Nat := (e.score, e.last_upd, e.doc.id)

/-- Result ordering: list.sort(key=(score, last_upd, id), reverse=True). -/
def searchLE (a b : SearchEntry) : Prop := tripleGE (searchKey a) (searchKey b)

instance : DecidableRel searchLE := fun a b => by
  unfold searchLE; infer_instance

/-- Decrypted lowercase body of a document (the enc/decrypt_text dance). -/
def docBodyPlain (sk ek : List Nat) (d : Document) : String :=
  match d.ocr_text with
  | some enc => if enc ≠ "" then decrypt_text sk ek enc else ""
  | none => ""

/-- The per-candidate scoring step of search_documents_advanced. -/
def advScoreEntry (sk ek : List Nat) (now : Nat) (query_tokens : List String)
    (st : DocState) : Option SearchEntry :=
  let title := pyStripWs st.doc.filename
  let title_l := pyLower title
  let body_l := pyLower (docBodyPlain sk ek st.doc)
  let hit_score := advWeightedHits title_l body_l query_tokens
  if hit_score = 0 then none
  else
    let last_upd := docLastUpd st.doc st.versions
    let age_days := if last_upd ≤ now then (now - last_upd) / 86400 else 0
    some { doc := st.doc, score := hit_score * 100 + (30 - min age_days 30), last_upd := last_upd }

/-- The owner/not-deleted candidate filter of the search base query. -/
def searchCandidates (db : List DocState) (user_id : Nat) : List DocState :=
  db.filter (fun st => st.doc.owner_user_id == user_id && !st.doc.is_deleted)

/-- Scored candidates of search_documents_advanced (zero scores dropped). -/
def advScored (sk ek : List Nat) (now : Nat) (db : List DocState)
    (user_id : Nat) (q : String) : List SearchEntry :=
  (searchCandidates db user_id).filterMap
    (advScoreEntry sk ek now (tokenizeWith docServiceStopwords q))

/-- Advanced-search entries sorted by (score, last_updated, id) descending. -/
def advSorted (sk ek : List Nat) (now : Nat) (db : List DocState)
    (user_id : Nat) (q : String) : List SearchEntry :=
  List.insertionSort searchLE (advScored sk ek now db user_id q)

/-- search_documents_advanced (category/date/mime filters at their None
defaults): tokenize, score candidates, drop zero scores, sort descending by
(score, last_updated, id), slice, and return (documents, total). -/
def search_documents_advanced (sk ek : List Nat) (now : Nat) (db : List DocState)
    (user_id : Nat) (q : String) (limit offsetv : Nat) : List Document × Nat :=
  if q = "" then ([], 0)
  else if tokenizeWith docServiceStopwords q = [] then ([], 0)
  else
    ((((advSorted sk ek now db user_id q).drop offsetv).take limit).map (fun e => e.doc),
     (advScored sk ek now db user_id q).length)

/-! ## app/web/routes_web.py: query tokenizer and ranking pack -/

/-- Membership in the character class of the edge-stripping regex:
word characters (ASCII alphanumerics and underscore) plus ä ö ü ß. -/
def isWordCharW (c : Char) : Bool :=
  c.isAlphanum || c = '_' || [228, 246, 252, 223].contains c.toNat

/-- re.sub(edge pattern, ""): strip non-word characters from both ends. -/
def stripNonWord (s : String) : String :=
  let l := s.toList.dropWhile (fun c => !isWordCharW c)
  String.mk ((l.reverse.dropWhile (fun c => !isWordCharW c)).reverse)

/-- _tokenize_query: lowercase, split on whitespace, strip non-word edges,
deduplicate preserving first occurrence.  No stopword or length filter. -/
def tokenize_query (q : String) : List String :=
  let q' := pyLower (pyStripWs q)
  if q' = "" then []
  else
    (pySplitWs q').foldl (fun acc p =>
      let p' := stripNonWord (pyStripWs p)
      if p' = "" then acc
      else if acc.contains p' then acc
      else acc ++ [p']) []

/-- Longest-first ordering of the alternation (sorted(terms, key=len,
reverse=True), stable). -/
def termLenGE (a b : String) : Prop := b.length ≤ a.length

instance : DecidableRel termLenGE := fun a b => by
  unfold termLenGE; infer_instance

/-- One scan step of pattern.finditer for the alternation of terms:
at each position the first (longest-first) matching alternative wins and the
scan resumes after it, otherwise the scan advances one character. -/
def countMatchesGo (terms : List String) : Nat → List Char → Nat
  | 0, _ => 0
  | _, [] => 0
  | f + 1, c :: rest =>
      match terms.find? (fun t => t ≠ "" && t.toList.isPrefixOf (c :: rest)) with
      | some t => 1 + countMatchesGo terms f ((c :: rest).drop t.length)
      | none => countMatchesGo terms f rest

/-- _count_matches with the IGNORECASE alternation pattern of
_compile_terms_pattern (terms are already lowercase). -/
def countMatches (terms : List String) (text : String) : Nat :=
  if text = "" then 0
  else countMatchesGo (List.insertionSort termLenGE terms) (text.length + 1) (pyLower text).toList

/-- The per-candidate scoring step of _search_rank_pack_docs. -/
def packScoreEntry (sk ek : List Nat) (now : Nat) (terms : List String)
    (st : DocState) : Option SearchEntry :=
  let title := st.doc.filename
  let body_plain := docBodyPlain sk ek st.doc
  let hit_score := countMatches terms title * 3 + countMatches terms body_plain
  if hit_score = 0 then none
  else
    let last_upd := docLastUpd st.doc st.versions
    let age_days := if last_upd ≤ now then (now - last_upd) / 86400 else 0
    some { doc := st.doc, score := hit_score * 100 + (30 - min age_days 30), last_upd := last_upd }

/-- Ranked entries of _search_rank_pack_docs for a nonempty term set. -/
def packRanked (sk ek : List Nat) (now : Nat) (docs : List DocState)
    (q : String) : List SearchEntry :=
  docs.filterMap (packScoreEntry sk ek now (tokenize_query q))

/-- Pack entries sorted by (score, last_updated, id) descending. -/
def packSorted (sk ek : List Nat) (now : Nat) (docs : List DocState)
    (q : String) : List SearchEntry :=
  List.insertionSort searchLE (packRanked sk ek now docs q)

/-- _search_rank_pack_docs, projected to the ranked document list.  With an
empty term set the whole candidate list is returned unranked. -/
def search_rank_pack_docs (sk ek : List Nat) (now : Nat) (docs : List DocState)
    (q : String) : List Document :=
  if tokenize_query q = [] then docs.map (fun st => st.doc)
  else (packSorted sk ek now docs q).map (fun e => e.doc)

/-! ## app/services/document_service.py: upload and the OCR pipeline -/

/-- posix basename. -/
def pyBasename (s : String) : String :=
  String.mk (((splitChars (fun c => c = '/') s.toList).getLast?).getD [])

/-- _sanitize_display_name. -/
def sanitize_display_name (name : String) : String :=
  let n1 := pyBasename (pyStripWs name)
  let n2 :=
    if n1.toList.any (fun c => c.toNat = 47 ∨ c.toNat = 92 ∨ c.toNat = 0) then
      String.mk (n1.toList.filterMap (fun c =>
        if c.toNat = 47 ∨ c.toNat = 92 then some (Char.ofNat 95)
        else if c.toNat = 0 then none else some c))
    else n1
  let n3 := String.mk (n2.toList.take 255)
  if n3 = "" then "unnamed" else n3

/-- Outcome of an upload: where it wrote, what bytes it wrote, and the
resulting document-with-version-1 rows. -/
structure UploadOutcome where
  target_path : String
  written : List Nat
  state : DocState
deriving Repr, DecidableEq

/-- upload_document (API /documents/upload): read plaintext, HMAC-tag it,
encrypt it, write the ciphertext to files/<user>/<stored_name>, record the
document and version 1.  none models the 400 for an empty file.  `guess`
stands for mimetypes.guess_type on the display name. -/
def upload_document (sk ek secret : List Nat) (ctx : CallCtx) (doc_id user_id : Nat)
    (original_name : String) (raw_bytes : List Nat) (content_type : Option String)
    (guess : Option String) (stored_name : String) : Option UploadOutcome :=
  let original := (fun b => if b = "" then "unnamed" else b) (pyBasename (pyStripWs original_name))
  let display := sanitize_display_name original
  let mime0 := pyLower (pyStripWs (String.mk
    ((splitChars (fun c => c = ';') (content_type.getD "").toList).headD [])))
  let mime := if mime0 = "" ∨ mime0 = "application/octet-stream" then
      (match guess with | some g => pyLower g | none => mime0)
    else mime0
  if raw_bytes.length = 0 then none
  else
    let integrity_tag := compute_integrity_tag secret raw_bytes
    let encrypted_bytes := encrypt_bytes sk ek ctx raw_bytes
    let target_path := "./data/files/" ++ toString user_id ++ "/" ++ stored_name
    some { target_path := target_path
           written := encrypted_bytes
           state := create_document_with_version doc_id user_id display target_path
             raw_bytes.length (some integrity_tag) (if mime = "" then none else some mime)
             (some "Initial upload") (some original) (some stored_name) }

/-- Outcome of a version upload (app/services/version_service.py). -/
structure VersionUploadOutcome where
  target_path : String
  written : List Nat
  state : DocState
  ver : DocumentVersion
deriving Repr, DecidableEq

/-- upload_new_version: save the uploaded stream to files/<user>/<disk_name>
via save_stream_to_file, hash the saved file with plain SHA-256
(sha256_of_stream), and add the version.  none models
NOT_FOUND_OR_FORBIDDEN.  (The trailing best-effort OCR step touches only the
database OCR column, not the files directory.) -/
def upload_new_version (st : DocState) (user_id : Nat) (file_obj : List Nat)
    (note : Option String) (disk_name : String) : Option VersionUploadOutcome :=
  if st.doc.owner_user_id ≠ user_id ∨ st.doc.is_deleted then none
  else
    let target_path := "./data/files/" ++ toString user_id ++ "/" ++ disk_name
    let saved := save_stream_to_file file_obj
    let sha256_hex := sha256_of_stream saved.1
    let res := add_version st target_path saved.2 (some sha256_hex) st.doc.mime_type
      (some ((fun n => if n = "" then "Content updated" else n) (note.getD "")))
    some { target_path := target_path, written := saved.1, state := res.1, ver := res.2 }

/-- Behaviour of the format-specific extractor on the temp file. -/
inductive ExtractOutcome where
  | ok (text : String)
  | exc
deriving Repr, DecidableEq

/-- Environment of one run_ocr_and_auto_category invocation: which paths
exist on disk, whether decrypt succeeds, what ocr_and_clean does, and the
fresh NamedTemporaryFile path. -/
structure OcrEnv where
  fs : List String
  decryptOk : Bool
  extract : ExtractOutcome
  tmpPath : String
deriving Repr, DecidableEq

/-- Result: final disk contents, whether the temp write step was reached,
and the OCR text stored to the database (encrypted by the repo layer). -/
structure OcrResult where
  fs : List String
  wroteTemp : Bool
  storedOcr : Option String
deriving Repr, DecidableEq

/-- os.unlink wrapped in try/except pass. -/
def osUnlink (fs : List String) (p : String) : List String :=
  fs.filter (fun q => q ≠ p)

/-- run_ocr_and_auto_category, as a transition on the disk state: guard on
the stored blob, decrypt, write the decrypted plaintext to the temp file,
extract (the except branch unlinks and the finally unlinks again), then
store the stripped text when nonempty.  Category assignment touches only the
database and is not part of the disk state. -/
def run_ocr_and_auto_category (env : OcrEnv) (doc : Document) : OcrResult :=
  if doc.storage_path = "" ∨ !(env.fs.contains doc.storage_path) then
    { fs := env.fs, wroteTemp := false, storedOcr := none }
  else if !env.decryptOk then
    { fs := env.fs, wroteTemp := false, storedOcr := none }
  else
    let fs1 := env.fs ++ [env.tmpPath]
    match env.extract with
    | ExtractOutcome.exc =>
        { fs := osUnlink (osUnlink fs1 env.tmpPath) env.tmpPath
          wroteTemp := true, storedOcr := none }
    | ExtractOutcome.ok t =>
        let fs2 := osUnlink fs1 env.tmpPath
        let ocr_plain := pyStripWs t
        if ocr_plain = "" then { fs := fs2, wroteTemp := true, storedOcr := none }
        else { fs := fs2, wroteTemp := true, storedOcr := some ocr_plain }

/-! ## Trash purge (app/services/trash_service.py)

The repository function purge_expired_deleted_documents that _purge_once
calls is imported from app.repositories.document_repo but is not present in
the source tree; it is modelled from the spec below. -/

/-- A documents row as needed by the purge: the soft-delete flag and the
deletion timestamp of the spec's two-phase delete. -/
structure TrashDoc where
  id : Nat
  is_deleted : Bool
  deleted_at : Option Nat
deriving Repr, DecidableEq

/-- Documents and version rows visible to the purge. -/
structure TrashState where
  docs : List TrashDoc
  versions : List DocumentVersion
deriving Repr, DecidableEq

/-- Modelled from the spec: a soft-deleted row is expired when its deletion
timestamp is older than the retention window of `older_than_days` days. -/
def trashExpired (now older_than_days : Nat) (d : TrashDoc) : Bool :=
  d.is_deleted &&
    (match d.deleted_at with
     | some t => t + older_than_days * 86400 < now
     | none => false)

/-- Modelled from the spec: one bounded batch — physically delete up to
batch_size expired documents, cascading to their version rows. -/
def purgeBatch (now days batch : Nat) (st : TrashState) : TrashState × Nat :=
  let victims := (st.docs.filter (trashExpired now days)).take batch
  let victimIds := victims.map (fun d => d.id)
  ({ docs := st.docs.filter (fun d => !victimIds.contains d.id)
     versions := st.versions.filter (fun v => !victimIds.contains v.document_id) },
   victims.length)

/-- Modelled from the spec: repeat bounded batches until one deletes
nothing; fuel bounds the loop. -/
def purgeLoop (now days batch : Nat) : Nat → TrashState → TrashState × Nat
  | 0, st => (st, 0)
  | f + 1, st =>
      let step := purgeBatch now days batch st
      if step.2 = 0 then (step.1, 0)
      else
        let rest := purgeLoop now days batch f step.1
        (rest.1, step.2 + rest.2)

/-- Modelled from the spec: purge_expired_deleted_documents(db,
older_than_days, batch_size) — delete, in bounded batches, exactly the
soft-deleted documents whose deletion timestamp is outside the retention
window, cascading to versions, and return how many documents were purged. -/
def purge_expired_deleted_documents (now days batch : Nat) (st : TrashState) :
    TrashState × Nat :=
  purgeLoop now days batch (st.docs.length + 1) st

/-- _purge_once: the trash service invokes the purge with the 30-day
retention window and batch size 200. -/
def purge_once (now : Nat) (st : TrashState) : TrashState × Nat :=
  purge_expired_deleted_documents now 30 200 st

/-! ## Claim-wording (specification-side) definitions, for comparison with
the code-side definitions above -/

/-- The hit score exactly as the search claim words it: the sum over query
terms of three times the literal substring occurrence count in the lowercased
title plus the occurrence count in the lowercased decrypted OCR body. -/
def specHitScore (sk ek : List Nat) (q : String) (st : DocState) : Nat :=
  ((tokenizeWith docServiceStopwords q).map (fun term =>
    3 * substrCount (pyLower (pyStripWs st.doc.filename)) term +
    substrCount (pyLower (docBodyPlain sk ek st.doc)) term)).sum

/-- The recency bonus as the claim words it: max(0, 30 - min(age_in_days, 30)). -/
def specRecencyBonus (now lu : Nat) : Nat :=
  30 - min (if lu ≤ now then (now - lu) / 86400 else 0) 30

/-- The pack variant's hit score (alternation-pattern counts). -/
def packHitScore (sk ek : List Nat) (terms : List String) (st : DocState) : Nat :=
  countMatches terms st.doc.filename * 3 + countMatches terms (docBodyPlain sk ek st.doc)

/-- The keyword-suggestion document set as the claim words it: the category's
NON-DELETED documents with OCR text (the code-side kwDocsWithOcr has no
is_deleted filter). -/
def kwDocsWithOcrSpec (docs : List Document) (user_id category_id : Nat) : List Document :=
  docs.filter (fun d =>
    d.owner_user_id == user_id && !d.is_deleted &&
    d.category_id == some category_id && d.ocr_text.isSome)

/-- suggest_keywords_for_category as the claim words it: identical pipeline,
but the corpus is restricted to non-deleted documents. -/
def suggest_keywords_spec (sk ek : List Nat) (cats : List Category)
    (docs : List Document) (user_id category_id top_n : Nat) :
    Option KeywordSuggestionOut :=
  match cats.find? (fun c => c.id == category_id && c.user_id == user_id) with
  | none => none
  | some category =>
      some { category_id := category.id
             category_name := category.name
             existing_keywords := kwExisting category
             suggested_keywords :=
               ((List.insertionSort kwSuggLE (kwScoredOver category
                   (kwCounterOver sk ek (kwDocsWithOcrSpec docs user_id category_id)))).take
                 top_n).map (fun t => t.1) }

/-- Payload of one add_version call (C3). -/
structure VPayload where
  storage_path : String
  size_bytes : Nat
  checksum : Option String
  mime : Option String
  note : Option String
deriving Repr, DecidableEq

/-- Fold a sequence of add_version calls over a document state. -/
def applyVersions (st : DocState) (ps : List VPayload) : DocState :=
  ps.foldl (fun s p => (add_version s p.storage_path p.size_bytes p.checksum p.mime p.note).1) st

/-! ## Theorems -/

/-- The ledger invariant carried through add_version calls. -/
def ledgerInv (st : DocState) : Prop :=
  (∀ v ∈ st.versions, v.document_id = st.doc.id) ∧
  st.versions.map (fun v => v.version_number) = List.range' 1 st.versions.length ∧
  ∃ v, st.versions.getLast? = some v ∧
    st.doc.storage_path = v.storage_path ∧ st.doc.size_bytes = v.size_bytes ∧
    st.doc.checksum_sha256 = v.checksum_sha256 ∧ st.doc.mime_type = v.mime_type

theorem foldl_max_range' (n : Nat) : (List.range' 1 n).foldl max 0 = n := by
  induction n with
  | zero => rfl
  | succ k ih =>
      rw [List.range'_concat, List.foldl_append, ih]
      simp [Nat.max_eq_right (Nat.le_succ_of_le (Nat.le_refl k))]
      omega

theorem next_version_number_of_inv (st : DocState) (h : ledgerInv st) :
    next_version_number st.versions st.doc.id = st.versions.length + 1 := by
  obtain ⟨hmine, hnums, -⟩ := h
  unfold next_version_number
  have hfilter : st.versions.filter (fun v => v.document_id == st.doc.id) = st.versions := by
    rw [List.filter_eq_self]
    intro v hv
    simpa using hmine v hv
  rw [hfilter, hnums, foldl_max_range']

theorem add_version_versions (st : DocState) (sp : String) (sz : Nat)
    (ck mt nt : Option String) :
    (add_version st sp sz ck mt nt).1.versions
      = st.versions ++ [(add_version st sp sz ck mt nt).2] := rfl

theorem add_version_doc_id (st : DocState) (sp : String) (sz : Nat)
    (ck mt nt : Option String) :
    (add_version st sp sz ck mt nt).1.doc.id = st.doc.id := rfl

theorem add_version_ver_fields (st : DocState) (sp : String) (sz : Nat)
    (ck mt nt : Option String) :
    (add_version st sp sz ck mt nt).2.document_id = st.doc.id ∧
    (add_version st sp sz ck mt nt).2.version_number
      = next_version_number st.versions st.doc.id ∧
    (add_version st sp sz ck mt nt).1.doc.storage_path
      = (add_version st sp sz ck mt nt).2.storage_path ∧
    (add_version st sp sz ck mt nt).1.doc.size_bytes
      = (add_version st sp sz ck mt nt).2.size_bytes ∧
    (add_version st sp sz ck mt nt).1.doc.checksum_sha256
      = (add_version st sp sz ck mt nt).2.checksum_sha256 ∧
    (add_version st sp sz ck mt nt).1.doc.mime_type
      = (add_version st sp sz ck mt nt).2.mime_type :=
  ⟨rfl, rfl, rfl, rfl, rfl, rfl⟩

theorem add_version_inv (st : DocState) (p : VPayload) (h : ledgerInv st) :
    ledgerInv (add_version st p.storage_path p.size_bytes p.checksum p.mime p.note).1 ∧
    (add_version st p.storage_path p.size_bytes p.checksum p.mime p.note).1.versions.length
      = st.versions.length + 1 ∧
    (add_version st p.storage_path p.size_bytes p.checksum p.mime p.note).1.doc.id = st.doc.id := by
  have hnext := next_version_number_of_inv st h
  obtain ⟨hmine, hnums, -⟩ := h
  obtain ⟨hdid, hvnum, hf1, hf2, hf3, hf4⟩ :=
    add_version_ver_fields st p.storage_path p.size_bytes p.checksum p.mime p.note
  refine ⟨⟨?_, ?_, ?_⟩, ?_, add_version_doc_id _ _ _ _ _ _⟩
  · intro v hv
    rw [add_version_versions] at hv
    rw [add_version_doc_id]
    rcases List.mem_append.mp hv with hv | hv
    · exact hmine v hv
    · simp only [List.mem_singleton] at hv
      subst hv
      exact hdid
  · rw [add_version_versions, List.map_append, hnums, List.length_append]
    simp only [List.map_cons, List.map_nil, List.length_cons, List.length_nil]
    rw [hvnum, hnext, List.range'_concat]
    simp [Nat.add_comm]
  · exact ⟨_, by rw [add_version_versions, List.getLast?_concat], hf1, hf2, hf3, hf4⟩
  · rw [add_version_versions, List.length_append]
    rfl

theorem applyVersions_inv (ps : List VPayload) (st : DocState) (h : ledgerInv st) :
    ledgerInv (applyVersions st ps) ∧
    (applyVersions st ps).versions.length = st.versions.length + ps.length ∧
    (applyVersions st ps).doc.id = st.doc.id := by
  induction ps generalizing st with
  | nil => simpa [applyVersions] using h
  | cons p rest ih =>
      have step := add_version_inv st p h
      have tail := ih _ step.1
      refine ⟨tail.1, ?_, ?_⟩
      · simp only [applyVersions, List.foldl_cons] at tail ⊢
        rw [tail.2.1, step.2.1]
        simp [List.length_cons]; omega
      · simp only [applyVersions, List.foldl_cons] at tail ⊢
        rw [tail.2.2, step.2.2]

theorem create_document_inv (doc_id user_id : Nat) (fn sp : String) (sz : Nat)
    (ck mt nt ofn sn : Option String) :
    ledgerInv (create_document_with_version doc_id user_id fn sp sz ck mt nt ofn sn) := by
  unfold ledgerInv create_document_with_version
  refine ⟨?_, by simp [List.range'], ?_⟩
  · intro v hv
    simp only [List.mem_singleton] at hv
    subst hv; rfl
  · exact ⟨_, rfl, rfl, rfl, rfl, rfl⟩

/-- C3: starting from document creation (version 1 mirrors the initial
fields), any N add_version calls produce version numbers 1..N+1 in order
with no gaps, and after each call the document's mirrored storage_path,
size_bytes, integrity tag and mime_type equal the just-added,
highest-numbered version's values. -/
theorem C3_version_chain (doc_id user_id : Nat) (fn sp : String) (sz : Nat)
    (ck mt nt ofn sn : Option String) (ps : List VPayload) :
    (applyVersions (create_document_with_version doc_id user_id fn sp sz ck mt nt ofn sn)
        ps).versions.map (fun v => v.version_number) = List.range' 1 (ps.length + 1) ∧
    ∃ v, (applyVersions (create_document_with_version doc_id user_id fn sp sz ck mt nt ofn sn)
        ps).versions.getLast? = some v ∧
      v.version_number = ps.length + 1 ∧
      (applyVersions (create_document_with_version doc_id user_id fn sp sz ck mt nt ofn sn)
        ps).doc.storage_path = v.storage_path ∧
      (applyVersions (create_document_with_version doc_id user_id fn sp sz ck mt nt ofn sn)
        ps).doc.size_bytes = v.size_bytes ∧
      (applyVersions (create_document_with_version doc_id user_id fn sp sz ck mt nt ofn sn)
        ps).doc.checksum_sha256 = v.checksum_sha256 ∧
      (applyVersions (create_document_with_version doc_id user_id fn sp sz ck mt nt ofn sn)
        ps).doc.mime_type = v.mime_type := by
  have base := create_document_inv doc_id user_id fn sp sz ck mt nt ofn sn
  have main := applyVersions_inv ps _ base
  have hlen : (applyVersions (create_document_with_version doc_id user_id fn sp sz ck mt nt ofn sn)
      ps).versions.length = ps.length + 1 := by
    rw [main.2.1]; simp [create_document_with_version]; omega
  obtain ⟨hmine, hnums, v, hlast, hm1, hm2, hm3, hm4⟩ := main.1
  refine ⟨by rw [hnums, hlen], v, hlast, ?_, hm1, hm2, hm3, hm4⟩
  have hmap := hnums
  rw [hlen] at hmap
  have hlastmap : ((applyVersions (create_document_with_version doc_id user_id fn sp sz ck mt nt
      ofn sn) ps).versions.map (fun v => v.version_number)).getLast?
      = some v.version_number := by
    rw [List.getLast?_map, hlast]
    rfl
  rw [hmap] at hlastmap
  have hr : (List.range' 1 (ps.length + 1)).getLast? = some (1 + ps.length) := by
    rw [List.range'_concat]
    simp
  rw [hr] at hlastmap
  have := Option.some.inj hlastmap
  omega

/-! C4: soft delete -/

/-- A concrete stored document for exercising soft_delete_document. -/
def cex4Doc : Document :=
  { id := 5, owner_user_id := 9, filename := "f", storage_path := "p", created_at := some 111 }

/-- C4 counterexample: the conditional UPDATE of soft_delete_document writes
the delete flag only — the updated row is the original row with is_deleted
set and every other field unchanged (in particular created_at, the only
timestamp in the documents schema, which has no deletion-timestamp column).
The claim's assertion that the UPDATE also sets a deletion timestamp is
therefore false on this input. -/
theorem C4_counterexample :
    soft_delete_document [cex4Doc] 5 9 = ([{ cex4Doc with is_deleted := true }], true) ∧
    ({ cex4Doc with is_deleted := true } : Document).created_at = cex4Doc.created_at ∧
    cex4Doc.is_deleted = false := by
  refine ⟨?_, rfl, rfl⟩
  decide

theorem soft_delete_fst (docs : List Document) (doc_id user_id : Nat) :
    (soft_delete_document docs doc_id user_id).1
      = docs.map (fun d =>
          if softDeleteHit doc_id user_id d then { d with is_deleted := true } else d) := rfl

theorem soft_delete_snd (docs : List Document) (doc_id user_id : Nat) :
    (soft_delete_document docs doc_id user_id).2
      = ((docs.filter (softDeleteHit doc_id user_id)).length > 0 : Bool) := by
  simp [soft_delete_document]

theorem softDeleteHit_iff (doc_id user_id : Nat) (d : Document) :
    softDeleteHit doc_id user_id d = true ↔
      d.id = doc_id ∧ d.owner_user_id = user_id ∧ d.is_deleted = false := by
  simp [softDeleteHit, Bool.and_eq_true, beq_iff_eq, Bool.not_eq_true', and_assoc]

theorem filter_hit_len_le_one (docs : List Document) (doc_id user_id : Nat)
    (h : (docs.map (fun d => d.id)).Nodup) :
    (docs.filter (softDeleteHit doc_id user_id)).length ≤ 1 := by
  induction docs with
  | nil => simp
  | cons d rest ih =>
      simp only [List.map_cons, List.nodup_cons, List.mem_map] at h
      by_cases hd : softDeleteHit doc_id user_id d = true
      · have hid : d.id = doc_id := ((softDeleteHit_iff _ _ _).mp hd).1
        have hrest : rest.filter (softDeleteHit doc_id user_id) = [] := by
          rw [List.filter_eq_nil_iff]
          intro a ha hpa
          have : a.id = doc_id := ((softDeleteHit_iff _ _ _).mp hpa).1
          exact absurd ⟨a, ha, this.trans hid.symm⟩ h.1
        simp [List.filter_cons, hd, hrest]
      · simp only [List.filter_cons, hd, if_false]
        exact Nat.le_trans (ih h.2) (Nat.le_refl 1)

theorem soft_delete_twice_false (docs : List Document) (doc_id user_id : Nat) :
    (soft_delete_document (soft_delete_document docs doc_id user_id).1 doc_id user_id).2
      = false := by
  rw [soft_delete_snd, soft_delete_fst]
  have : (docs.map (fun d =>
      if softDeleteHit doc_id user_id d then { d with is_deleted := true } else d)).filter
      (softDeleteHit doc_id user_id) = [] := by
    rw [List.filter_eq_nil_iff]
    intro a ha hpa
    rcases List.mem_map.mp ha with ⟨d, -, hda⟩
    by_cases hd : softDeleteHit doc_id user_id d = true
    · rw [if_pos hd] at hda
      have := ((softDeleteHit_iff _ _ _).mp hpa).2.2
      rw [← hda] at this
      simp at this
    · rw [if_neg hd] at hda
      rw [hda] at hd
      exact hd hpa
  rw [this]
  simp

/-- C4 amended: soft_delete_document performs one conditional UPDATE that
sets only the is_deleted flag (the schema has no deletion timestamp) on the
owner's not-yet-deleted document; it returns true iff exactly one row
matched; a second call on the result returns false; and it returns false
when no row of the owner with that id is live. -/
theorem C4_soft_delete (docs : List Document) (doc_id user_id : Nat)
    (hnodup : (docs.map (fun d => d.id)).Nodup) :
    ((soft_delete_document docs doc_id user_id).2 = true ↔
      (docs.filter (softDeleteHit doc_id user_id)).length = 1) ∧
    (soft_delete_document (soft_delete_document docs doc_id user_id).1 doc_id user_id).2
      = false ∧
    (∀ d ∈ docs,
      (softDeleteHit doc_id user_id d = true →
        { d with is_deleted := true } ∈ (soft_delete_document docs doc_id user_id).1) ∧
      (softDeleteHit doc_id user_id d = false →
        d ∈ (soft_delete_document docs doc_id user_id).1)) ∧
    ((¬ ∃ d ∈ docs, d.id = doc_id ∧ d.owner_user_id = user_id ∧ d.is_deleted = false) →
      (soft_delete_document docs doc_id user_id).2 = false) := by
  have hle := filter_hit_len_le_one docs doc_id user_id hnodup
  refine ⟨?_, soft_delete_twice_false docs doc_id user_id, ?_, ?_⟩
  · rw [soft_delete_snd]
    constructor
    · intro h
      simp only [decide_eq_true_eq] at h
      omega
    · intro h
      simp only [decide_eq_true_eq]
      omega
  · intro d hd
    constructor
    · intro hhit
      rw [soft_delete_fst]
      refine List.mem_map.mpr ⟨d, hd, ?_⟩
      rw [if_pos hhit]
    · intro hmiss
      rw [soft_delete_fst]
      refine List.mem_map.mpr ⟨d, hd, ?_⟩
      rw [if_neg (by rw [hmiss]; exact Bool.false_ne_true)]
  · intro hnone
    rw [soft_delete_snd]
    have : docs.filter (softDeleteHit doc_id user_id) = [] := by
      rw [List.filter_eq_nil_iff]
      intro a ha hpa
      exact hnone ⟨a, ha, (softDeleteHit_iff _ _ _).mp hpa⟩
    rw [this]
    simp

/-- C4 witness: the theorem applied at a concrete one-row table. -/
theorem C4_soft_delete_witness :
    ((([cex4Doc] : List Document).map (fun d => d.id)).Nodup) ∧
    ((soft_delete_document [cex4Doc] 5 9).2 = true ↔
      (([cex4Doc] : List Document).filter (softDeleteHit 5 9)).length = 1) := by
  refine ⟨by decide, (C4_soft_delete [cex4Doc] 5 9 (by decide)).1⟩

/-! C6: the fuzzy category match -/

/-- The C6 scenario: one category with keyword list "vertrag". -/
def cex6Cats : List Category :=
  [{ id := 1, user_id := 1, name := "Verträge", keywords := some "vertrag" }]

/-- C6: evaluating the code at the claimed scenario.  The OCR text
"Arbeitsvertrag wurde unterschrieben" tokenizes to
[arbeitsvertrag, wurde, unterschrieben]; the fuzzy branch requires the
keyword token to be a PREFIX of a document token (dt.startswith(kw_tok)),
and "arbeitsvertrag" does not start with "vertrag", so the category scores 0
and no category is suggested — contradicting the claim, the scenario in the
specification, and the code's own comments (which assert that "vertrag"
matches "arbeitsvertrag"). -/
theorem C6_fuzzy_scenario :
    suggest_category_for_document cex6Cats 1 "Arbeitsvertrag wurde unterschrieben" 1 = none ∧
    tokenizeWith autoTaggingStopwords "Arbeitsvertrag wurde unterschrieben"
      = ["arbeitsvertrag", "wurde", "unterschrieben"] ∧
    categoryScore ["arbeitsvertrag", "wurde", "unterschrieben"] ["vertrag"] = 0 ∧
    ("vertrag".toList.isPrefixOf "arbeitsvertrag".toList) = false ∧
    ("vertrag".toList.isPrefixOf "vertragsende".toList) = true ∧
    suggest_category_for_document cex6Cats 1 "vertragsende morgen kommt" 1
      = some { id := 1, user_id := 1, name := "Verträge", keywords := some "vertrag" } := by
  refine ⟨by decide, by decide, by decide, by decide, by decide, by decide⟩

/-! C2: duplicate detection -/

/-- Tag-matched older document of the C2 counterexample. -/
def cex2DocA : Document :=
  { id := 1, owner_user_id := 7, filename := "a.pdf", storage_path := "pa",
    checksum_sha256 := some "T1", size_bytes := 5 }

/-- Newer document matching the candidate's filename (case-insensitively)
and size, but not its tag. -/
def cex2DocB : Document :=
  { id := 2, owner_user_id := 7, filename := "b.pdf", storage_path := "pb",
    checksum_sha256 := some "X2", size_bytes := 7 }

/-- C2 counterexample: the user owns a non-deleted document (cex2DocA) whose
integrity tag equals the candidate's tag "T1", yet find_duplicate returns
the OTHER document cex2DocB — the newer (higher-id) name/size match — with
reason "name_size": the single OR query is ordered by id descending, so the
tag rule does not take precedence when the name/size match is newer. -/
theorem C2_counterexample :
    cex2DocA.checksum_sha256 = some "T1" ∧ cex2DocA.is_deleted = false ∧
    cex2DocA.owner_user_id = 7 ∧
    find_duplicate [cex2DocA, cex2DocB] 7 (some "T1") (some "B.PDF") (some 7)
      = (some cex2DocB, some "name_size") ∧
    cex2DocB ≠ cex2DocA := by
  refine ⟨rfl, rfl, rfl, by decide, by decide⟩

theorem maxById_go (l : List Document) :
    ∀ acc d, (l.foldl (fun acc d => match acc with
      | none => some d
      | some m => if d.id > m.id then some d else some m) acc) = some d →
      (acc = some d ∨ d ∈ l) ∧ (∀ m, acc = some m → m.id ≤ d.id) ∧
      ∀ d' ∈ l, d'.id ≤ d.id := by
  induction l with
  | nil =>
      intro acc d h
      simp only [List.foldl_nil] at h
      exact ⟨Or.inl h, fun m hm => by rw [h] at hm; exact (Option.some.inj hm) ▸ Nat.le_refl _,
        by simp⟩
  | cons x rest ih =>
      intro acc d h
      simp only [List.foldl_cons] at h
      have step := ih _ d h
      obtain ⟨hacc, hmono, hrest⟩ := step
      constructor
      · cases acc with
        | none =>
            rcases hacc with hx | hr
            · have hxd : x = d := Option.some.inj hx
              exact Or.inr (by rw [← hxd]; exact List.mem_cons_self x rest)
            · exact Or.inr (List.mem_cons_of_mem x hr)
        | some m =>
            rcases hacc with hx | hr
            · simp only at hx
              by_cases hcmp : x.id > m.id
              · rw [if_pos hcmp] at hx
                have hxd : x = d := Option.some.inj hx
                exact Or.inr (by rw [← hxd]; exact List.mem_cons_self x rest)
              · rw [if_neg hcmp] at hx
                exact Or.inl hx
            · exact Or.inr (List.mem_cons_of_mem x hr)
      refine ⟨?_, ?_⟩
      · intro m hm
        subst hm
        by_cases hcmp : x.id > m.id
        · have := hmono x (by simp [hcmp])
          omega
        · exact hmono m (by simp [hcmp])
      · intro d' hd'
        rcases List.mem_cons.mp hd' with hd' | hd'
        · subst hd'
          cases acc with
          | none => exact hmono d' rfl
          | some m =>
              by_cases hcmp : d'.id > m.id
              · exact hmono d' (by simp [hcmp])
              · have := hmono m (by simp [hcmp])
                omega
        · exact hrest d' hd'

theorem maxById_spec (l : List Document) (d : Document) (h : maxById l = some d) :
    d ∈ l ∧ ∀ d' ∈ l, d'.id ≤ d.id := by
  have := maxById_go l none d h
  rcases this.1 with h0 | h0
  · exact absurd h0 (by simp)
  · exact ⟨h0, this.2.2⟩

/-- C2 amended: find_duplicate returns the newest (highest-id) non-deleted
document of the user matching either the tag rule or the name/size rule in
one OR query, and the reason is "sha256" exactly when the returned
document's own stored tag equals the candidate's normalized tag, else
"name_size"; a tag match on an older document does not take precedence over
a newer name/size match. -/
theorem C2_find_duplicate (docs : List Document) (uid : Nat) (sha name : Option String)
    (size : Option Nat) (d : Document)
    (h : (find_duplicate docs uid sha name size).1 = some d) :
    d ∈ docs ∧ d.owner_user_id = uid ∧ d.is_deleted = false ∧
    dupMatchExpr (pyStripWs (sha.getD "")) (pyStripWs (name.getD "")) size d = true ∧
    (∀ d' ∈ docs, d'.owner_user_id = uid → d'.is_deleted = false →
      dupMatchExpr (pyStripWs (sha.getD "")) (pyStripWs (name.getD "")) size d' = true →
      d'.id ≤ d.id) ∧
    (find_duplicate docs uid sha name size).2
      = some (if pyStripWs (sha.getD "") ≠ ""
            ∧ d.checksum_sha256 = some (pyStripWs (sha.getD ""))
          then "sha256" else "name_size") := by
  cases hg : get_by_sha_or_name_size docs uid sha name size with
  | none => simp [find_duplicate, hg] at h
  | some d0 =>
      have hd0 : d0 = d := by
        simp [find_duplicate, hg] at h
        split at h <;> simp_all
      subst hd0
      have hg0 := hg
      simp only [get_by_sha_or_name_size] at hg
      split at hg
      · exact absurd hg (by simp)
      · have hmax := maxById_spec _ _ hg
        have hmem := List.mem_filter.mp hmax.1
        have hconds := hmem.2
        simp only [Bool.and_eq_true, beq_iff_eq, Bool.not_eq_true'] at hconds
        refine ⟨hmem.1, hconds.1.1, hconds.1.2, hconds.2, ?_, ?_⟩
        · intro d' hd' hown hdel hmatch
          exact hmax.2 d' (List.mem_filter.mpr ⟨hd', by
            simp only [Bool.and_eq_true, beq_iff_eq, Bool.not_eq_true']
            exact ⟨⟨hown, hdel⟩, hmatch⟩⟩)
        · simp only [find_duplicate, hg0]
          split <;> simp_all

/-- C2 witness: applying the amended theorem at a concrete single-document
table with a pure tag match. -/
theorem C2_find_duplicate_witness :
    (find_duplicate [cex2DocA] 7 (some "T1") none none).1 = some cex2DocA ∧
    cex2DocA ∈ [cex2DocA] := by
  refine ⟨by decide, (C2_find_duplicate [cex2DocA] 7 (some "T1") none none cex2DocA
    (by decide)).1⟩

/-! C9: the OCR temp-file lifetime -/

theorem osUnlink_not_mem (fs : List String) (p : String) (h : ¬ p ∈ fs) :
    osUnlink fs p = fs := by
  unfold osUnlink
  rw [List.filter_eq_self]
  intro a ha
  have hne : a ≠ p := fun he => h (he ▸ ha)
  simp [hne]

theorem osUnlink_append_self (fs : List String) (p : String) (h : ¬ p ∈ fs) :
    osUnlink (fs ++ [p]) p = fs := by
  unfold osUnlink
  rw [List.filter_append]
  have h1 : fs.filter (fun q => q ≠ p) = fs := osUnlink_not_mem fs p h
  have h2 : ([p].filter (fun q => q ≠ p) : List String) = [] := by simp
  rw [h1, h2, List.append_nil]

/-- C9: whenever run_ocr_and_auto_category runs against a disk state that
does not already contain its fresh temp path, the final disk state equals
the initial one — in particular the decrypted-plaintext temp file does not
survive the call on any exit path (missing blob, decrypt failure, extractor
exception, empty extraction, successful extraction). -/
theorem C9_temp_file_cleanup (env : OcrEnv) (doc : Document)
    (hfresh : ¬ env.tmpPath ∈ env.fs) :
    (run_ocr_and_auto_category env doc).fs = env.fs ∧
    ¬ env.tmpPath ∈ (run_ocr_and_auto_category env doc).fs := by
  have hall : (run_ocr_and_auto_category env doc).fs = env.fs := by
    unfold run_ocr_and_auto_category
    split
    · rfl
    · split
      · rfl
      · cases env.extract with
        | exc =>
            simp only
            rw [osUnlink_append_self env.fs env.tmpPath hfresh,
              osUnlink_not_mem env.fs env.tmpPath hfresh]
        | ok t =>
            simp only
            split
            · exact osUnlink_append_self env.fs env.tmpPath hfresh
            · exact osUnlink_append_self env.fs env.tmpPath hfresh
  exact ⟨hall, by rw [hall]; exact hfresh⟩

/-- C9 witness: the cleanup theorem at a concrete invocation whose extractor
raises. -/
theorem C9_temp_file_cleanup_witness :
    ¬ ("tmpfile" : String) ∈ (["blob"] : List String) ∧
    (run_ocr_and_auto_category
        { fs := ["blob"], decryptOk := true, extract := ExtractOutcome.exc,
          tmpPath := "tmpfile" }
        { id := 1, owner_user_id := 1, filename := "f", storage_path := "blob" }).fs
      = ["blob"] := by
  refine ⟨by decide, (C9_temp_file_cleanup _ _ (by decide)).1⟩

/-! C7: search ranking -/

instance : IsTotal SearchEntry searchLE :=
  ⟨by intro a b; unfold searchLE tripleGE; omega⟩

instance : IsTrans SearchEntry searchLE :=
  ⟨by intro a b c hab hbc; unfold searchLE tripleGE at *; omega⟩

instance : IsTotal String termLenGE :=
  ⟨by intro a b; unfold termLenGE; omega⟩

instance : IsTrans String termLenGE :=
  ⟨by intro a b c hab hbc; unfold termLenGE at *; omega⟩

theorem advWeightedHits_eq_sum (title_l body_l : String) (toks : List String) :
    advWeightedHits title_l body_l toks
      = (toks.map (fun term =>
          3 * substrCount title_l term + substrCount body_l term)).sum := by
  unfold advWeightedHits
  have gen : ∀ (l : List String) (a : Nat),
      l.foldl (fun acc tok => acc + substrCount title_l tok * 3 + substrCount body_l tok) a
        = a + (l.map (fun term =>
            3 * substrCount title_l term + substrCount body_l term)).sum := by
    intro l
    induction l with
    | nil => intro a; simp
    | cons t rest ih =>
        intro a
        simp only [List.foldl_cons, List.map_cons, List.sum_cons]
        rw [ih]
        omega
  simpa using gen toks 0

theorem advWeightedHits_eq_spec (sk ek : List Nat) (q : String) (st : DocState) :
    advWeightedHits (pyLower (pyStripWs st.doc.filename))
        (pyLower (docBodyPlain sk ek st.doc)) (tokenizeWith docServiceStopwords q)
      = specHitScore sk ek q st := by
  rw [advWeightedHits_eq_sum]
  rfl

theorem advScoreEntry_eq_none (sk ek : List Nat) (now : Nat) (toks : List String)
    (st : DocState)
    (h : advWeightedHits (pyLower (pyStripWs st.doc.filename))
        (pyLower (docBodyPlain sk ek st.doc)) toks = 0) :
    advScoreEntry sk ek now toks st = none := by
  simp only [advScoreEntry, h]
  rfl

theorem advScoreEntry_eq_some (sk ek : List Nat) (now : Nat) (toks : List String)
    (st : DocState)
    (h : advWeightedHits (pyLower (pyStripWs st.doc.filename))
        (pyLower (docBodyPlain sk ek st.doc)) toks ≠ 0) :
    advScoreEntry sk ek now toks st = some
      { doc := st.doc
        score := advWeightedHits (pyLower (pyStripWs st.doc.filename))
            (pyLower (docBodyPlain sk ek st.doc)) toks * 100
          + specRecencyBonus now (docLastUpd st.doc st.versions)
        last_upd := docLastUpd st.doc st.versions } := by
  simp only [advScoreEntry, h, if_false, specRecencyBonus]

theorem mem_searchCandidates (db : List DocState) (uid : Nat) (st : DocState) :
    st ∈ searchCandidates db uid ↔
      st ∈ db ∧ st.doc.owner_user_id = uid ∧ st.doc.is_deleted = false := by
  unfold searchCandidates
  rw [List.mem_filter]
  simp [Bool.and_eq_true, beq_iff_eq, Bool.not_eq_true', and_assoc]

theorem mem_sorted_entries (l : List SearchEntry) (e : SearchEntry) :
    e ∈ List.insertionSort searchLE l ↔ e ∈ l := List.mem_insertionSort searchLE

theorem mem_advSorted (sk ek : List Nat) (now : Nat) (db : List DocState) (uid : Nat)
    (q : String) (e : SearchEntry) :
    e ∈ advSorted sk ek now db uid q ↔
      ∃ st ∈ searchCandidates db uid,
        advScoreEntry sk ek now (tokenizeWith docServiceStopwords q) st = some e := by
  unfold advSorted advScored
  rw [mem_sorted_entries, List.mem_filterMap]

theorem packScoreEntry_eq_none (sk ek : List Nat) (now : Nat) (terms : List String)
    (st : DocState)
    (h : countMatches terms st.doc.filename * 3
        + countMatches terms (docBodyPlain sk ek st.doc) = 0) :
    packScoreEntry sk ek now terms st = none := by
  simp only [packScoreEntry, h]
  rfl

theorem packScoreEntry_eq_some (sk ek : List Nat) (now : Nat) (terms : List String)
    (st : DocState)
    (h : countMatches terms st.doc.filename * 3
        + countMatches terms (docBodyPlain sk ek st.doc) ≠ 0) :
    packScoreEntry sk ek now terms st = some
      { doc := st.doc
        score := (countMatches terms st.doc.filename * 3
            + countMatches terms (docBodyPlain sk ek st.doc)) * 100
          + specRecencyBonus now (docLastUpd st.doc st.versions)
        last_upd := docLastUpd st.doc st.versions } := by
  simp only [packScoreEntry, h, if_false, specRecencyBonus]

theorem mem_packSorted (sk ek : List Nat) (now : Nat) (db : List DocState)
    (q : String) (e : SearchEntry) :
    e ∈ packSorted sk ek now db q ↔
      ∃ st ∈ db, packScoreEntry sk ek now (tokenize_query q) st = some e := by
  unfold packSorted packRanked
  rw [mem_sorted_entries, List.mem_filterMap]

/-- C7 amended: for search_documents_advanced the claim holds as stated —
a query tokenizing to an empty term set yields zero results; exactly the
candidate documents with positive per-term hit score (3 times the literal
title substring count plus the body substring count, summed over query
terms) are returned; an entry's total score is hit_score*100 plus the
recency bonus max(0, 30 - min(age_days, 30)); and the ranked list is sorted
by (score, last_updated, id) descending.  The web pack variant
(_search_rank_pack_docs) however returns the ENTIRE candidate list when the
query tokenizes to an empty term set; for a nonempty term set it returns
exactly the candidates whose alternation-pattern hit score is positive, in
the same descending order. -/
theorem C7_search_ranking (sk ek : List Nat) (now : Nat) (db : List DocState)
    (uid : Nat) (q : String) :
    (tokenizeWith docServiceStopwords q = [] →
      search_documents_advanced sk ek now db uid q db.length 0 = ([], 0)) ∧
    (∀ d : Document,
      d ∈ (search_documents_advanced sk ek now db uid q db.length 0).1 ↔
        (tokenizeWith docServiceStopwords q ≠ [] ∧
          ∃ st, st ∈ db ∧ st.doc = d ∧ st.doc.owner_user_id = uid ∧
            st.doc.is_deleted = false ∧ 0 < specHitScore sk ek q st)) ∧
    (∀ st : DocState, ∀ e : SearchEntry,
      advScoreEntry sk ek now (tokenizeWith docServiceStopwords q) st = some e →
        e.doc = st.doc ∧
        e.score = specHitScore sk ek q st * 100
          + specRecencyBonus now (docLastUpd st.doc st.versions)) ∧
    List.Sorted searchLE (advSorted sk ek now db uid q) ∧
    (tokenize_query q = [] →
      search_rank_pack_docs sk ek now db q = db.map (fun st => st.doc)) ∧
    (tokenize_query q ≠ [] → ∀ d : Document,
      d ∈ search_rank_pack_docs sk ek now db q ↔
        ∃ st, st ∈ db ∧ st.doc = d ∧ 0 < packHitScore sk ek (tokenize_query q) st) ∧
    List.Sorted searchLE (packSorted sk ek now db q) := by
  refine ⟨?_, ?_, ?_, ?_, ?_, ?_, ?_⟩
  · intro h
    by_cases hq : q = ""
    · simp [search_documents_advanced, hq]
    · simp [search_documents_advanced, hq, h]
  · intro d
    by_cases htoks : tokenizeWith docServiceStopwords q = []
    · constructor
      · intro hd
        by_cases hq : q = "" <;> simp [search_documents_advanced, hq, htoks] at hd
      · rintro ⟨hne, -⟩
        exact absurd htoks hne
    · have hq : q ≠ "" := by
        intro hq
        rw [hq] at htoks
        exact htoks rfl
      have hres : (search_documents_advanced sk ek now db uid q db.length 0).1
          = (advSorted sk ek now db uid q).map (fun e => e.doc) := by
        simp only [search_documents_advanced, hq, htoks, if_false, List.drop_zero]
        have hlen : (advSorted sk ek now db uid q).length ≤ db.length := by
          unfold advSorted advScored
          rw [List.length_insertionSort]
          calc (List.filterMap _ (searchCandidates db uid)).length
              ≤ (searchCandidates db uid).length := List.length_filterMap_le _ _
            _ ≤ db.length := List.length_filter_le _ _
        rw [List.take_of_length_le hlen]
      rw [hres]
      constructor
      · intro hd
        rcases List.mem_map.mp hd with ⟨e, he, hde⟩
        rcases (mem_advSorted sk ek now db uid q e).mp he with ⟨st, hst, hfe⟩
        rcases (mem_searchCandidates db uid st).mp hst with ⟨hdb, hown, hdel⟩
        refine ⟨htoks, st, hdb, ?_, hown, hdel, ?_⟩
        · by_cases hw : advWeightedHits (pyLower (pyStripWs st.doc.filename))
              (pyLower (docBodyPlain sk ek st.doc)) (tokenizeWith docServiceStopwords q) = 0
          · rw [advScoreEntry_eq_none sk ek now _ st hw] at hfe
            exact absurd hfe (by simp)
          · rw [advScoreEntry_eq_some sk ek now _ st hw] at hfe
            rw [← hde, ← Option.some.inj hfe]
        · by_cases hw : advWeightedHits (pyLower (pyStripWs st.doc.filename))
              (pyLower (docBodyPlain sk ek st.doc)) (tokenizeWith docServiceStopwords q) = 0
          · rw [advScoreEntry_eq_none sk ek now _ st hw] at hfe
            exact absurd hfe (by simp)
          · rw [← advWeightedHits_eq_spec]
            omega
      · rintro ⟨-, st, hdb, hdoc, hown, hdel, hpos⟩
        have hw : advWeightedHits (pyLower (pyStripWs st.doc.filename))
            (pyLower (docBodyPlain sk ek st.doc)) (tokenizeWith docServiceStopwords q) ≠ 0 := by
          rw [advWeightedHits_eq_spec]
          omega
        refine List.mem_map.mpr ⟨_, (mem_advSorted sk ek now db uid q _).mpr
          ⟨st, (mem_searchCandidates db uid st).mpr ⟨hdb, hown, hdel⟩,
            advScoreEntry_eq_some sk ek now _ st hw⟩, hdoc⟩
  · intro st e hfe
    by_cases hw : advWeightedHits (pyLower (pyStripWs st.doc.filename))
        (pyLower (docBodyPlain sk ek st.doc)) (tokenizeWith docServiceStopwords q) = 0
    · rw [advScoreEntry_eq_none sk ek now _ st hw] at hfe
      exact absurd hfe (by simp)
    · rw [advScoreEntry_eq_some sk ek now _ st hw] at hfe
      rw [← Option.some.inj hfe]
      exact ⟨rfl, by rw [advWeightedHits_eq_spec]⟩
  · exact List.sorted_insertionSort searchLE _
  · intro h
    simp [search_rank_pack_docs, h]
  · intro hterms d
    have hres : search_rank_pack_docs sk ek now db q
        = (packSorted sk ek now db q).map (fun e => e.doc) := by
      simp [search_rank_pack_docs, hterms]
    rw [hres]
    constructor
    · intro hd
      rcases List.mem_map.mp hd with ⟨e, he, hde⟩
      rcases (mem_packSorted sk ek now db q e).mp he with ⟨st, hst, hfe⟩
      refine ⟨st, hst, ?_, ?_⟩
      · by_cases hw : countMatches (tokenize_query q) st.doc.filename * 3
            + countMatches (tokenize_query q) (docBodyPlain sk ek st.doc) = 0
        · rw [packScoreEntry_eq_none sk ek now _ st hw] at hfe
          exact absurd hfe (by simp)
        · rw [packScoreEntry_eq_some sk ek now _ st hw] at hfe
          rw [← hde, ← Option.some.inj hfe]
      · by_cases hw : countMatches (tokenize_query q) st.doc.filename * 3
            + countMatches (tokenize_query q) (docBodyPlain sk ek st.doc) = 0
        · rw [packScoreEntry_eq_none sk ek now _ st hw] at hfe
          exact absurd hfe (by simp)
        · unfold packHitScore
          omega
    · rintro ⟨st, hst, hdoc, hpos⟩
      have hnz : countMatches (tokenize_query q) st.doc.filename * 3
          + countMatches (tokenize_query q) (docBodyPlain sk ek st.doc) ≠ 0 := by
        unfold packHitScore at hpos
        omega
      exact List.mem_map.mpr ⟨_, (mem_packSorted sk ek now db q _).mpr
        ⟨st, hst, packScoreEntry_eq_some sk ek now _ st hnz⟩, hdoc⟩
  · exact List.sorted_insertionSort searchLE _

/-- A candidate document for the C7 counterexample. -/
def cex7St : DocState :=
  { doc := { id := 3, owner_user_id := 1, filename := "alpha" }, versions := [] }

/-- C7 counterexample: the query "!!!" tokenizes to an empty term set (its
only token strips to nothing), yet _search_rank_pack_docs returns the whole
candidate list — the document "alpha", which contains no occurrence of any
query term, appears in the results instead of zero results being returned. -/
theorem C7_counterexample :
    tokenize_query "!!!" = [] ∧
    (search_rank_pack_docs [] [] 0 [cex7St] "!!!").map (fun d => d.id) = [3] := by
  refine ⟨by decide, by decide⟩

/-- C7 witness: the amended theorem at a concrete store and query. -/
theorem C7_search_ranking_witness :
    (tokenizeWith docServiceStopwords "" = []) ∧
    search_documents_advanced [] [] 0
      [{ doc := { id := 1, owner_user_id := 1, filename := "a" }, versions := [] }] 1 ""
      1 0 = ([], 0) := by
  refine ⟨by decide, (C7_search_ranking [] [] 0
    [{ doc := { id := 1, owner_user_id := 1, filename := "a" }, versions := [] }] 1 "").1
    (by decide)⟩

/-! C8: keyword suggestion -/

theorem strLtB_asymm : ∀ a b : List Char, strLtB a b = true → strLtB b a = false := by
  intro a
  induction a with
  | nil =>
      intro b h
      cases b with
      | nil => exact absurd h (by simp [strLtB])
      | cons d ds => simp [strLtB]
  | cons c cs ih =>
      intro b h
      cases b with
      | nil => exact absurd h (by simp [strLtB])
      | cons d ds =>
          simp only [strLtB] at h ⊢
          by_cases h1 : c.toNat < d.toNat
          · rw [if_neg (by omega : ¬ d.toNat < c.toNat), if_pos h1]
          · by_cases h2 : d.toNat < c.toNat
            · rw [if_neg h1, if_pos h2] at h
              exact absurd h (by simp)
            · rw [if_neg h1, if_neg h2] at h
              rw [if_neg h2, if_neg h1]
              exact ih ds h

theorem strLtB_le_trans : ∀ (c b a : List Char),
    strLtB b a = false → strLtB c b = false → strLtB c a = false := by
  intro c
  induction c with
  | nil =>
      intro b a hba hcb
      cases b with
      | nil =>
          cases a with
          | nil => rfl
          | cons x xs => exact absurd hba (by simp [strLtB])
      | cons y ys => exact absurd hcb (by simp [strLtB])
  | cons d ds ih =>
      intro b a hba hcb
      cases a with
      | nil => simp [strLtB]
      | cons x xs =>
          cases b with
          | nil => exact absurd hba (by simp [strLtB])
          | cons y ys =>
              simp only [strLtB] at hba hcb ⊢
              by_cases hyx : y.toNat < x.toNat
              · rw [if_pos hyx] at hba
                exact absurd hba (by simp)
              · by_cases hdy : d.toNat < y.toNat
                · rw [if_pos hdy] at hcb
                  exact absurd hcb (by simp)
                · rw [if_neg hyx] at hba
                  rw [if_neg hdy] at hcb
                  by_cases hxy : x.toNat < y.toNat
                  · rw [if_neg (by omega : ¬ d.toNat < x.toNat),
                      if_pos (by omega : x.toNat < d.toNat)]
                  · rw [if_neg hxy] at hba
                    by_cases hyd : y.toNat < d.toNat
                    · rw [if_neg (by omega : ¬ d.toNat < x.toNat),
                        if_pos (by omega : x.toNat < d.toNat)]
                    · rw [if_neg hyd] at hcb
                      rw [if_neg (by omega : ¬ d.toNat < x.toNat),
                        if_neg (by omega : ¬ x.toNat < d.toNat)]
                      exact ih ys xs hba hcb

instance : IsTotal (String × Int × Nat) kwSuggLE := ⟨by
  intro a b
  unfold kwSuggLE pyStrLe
  rcases lt_trichotomy a.2.1 b.2.1 with h | h | h
  · exact Or.inr (Or.inl h)
  · rcases lt_trichotomy a.2.2 b.2.2 with h2 | h2 | h2
    · exact Or.inr (Or.inr ⟨h.symm, Or.inl h2⟩)
    · cases hlt : strLtB b.1.toList a.1.toList with
      | false => exact Or.inl (Or.inr ⟨h, Or.inr ⟨h2, rfl⟩⟩)
      | true => exact Or.inr (Or.inr ⟨h.symm, Or.inr ⟨h2.symm, strLtB_asymm _ _ hlt⟩⟩)
    · exact Or.inl (Or.inr ⟨h, Or.inl h2⟩)
  · exact Or.inl (Or.inl h)⟩

instance : IsTrans (String × Int × Nat) kwSuggLE := ⟨by
  intro a b c hab hbc
  unfold kwSuggLE pyStrLe at *
  rcases hab with h1 | ⟨e1, h1⟩
  · rcases hbc with h2 | ⟨e2, h2⟩
    · exact Or.inl (h2.trans h1)
    · exact Or.inl (by rw [← e2]; exact h1)
  · rcases hbc with h2 | ⟨e2, h2⟩
    · exact Or.inl (by rw [e1]; exact h2)
    · refine Or.inr ⟨e1.trans e2, ?_⟩
      rcases h1 with g1 | ⟨f1, g1⟩
      · rcases h2 with g2 | ⟨f2, g2⟩
        · exact Or.inl (g2.trans g1)
        · exact Or.inl (by rw [← f2]; exact g1)
      · rcases h2 with g2 | ⟨f2, g2⟩
        · exact Or.inl (by rw [f1]; exact g2)
        · exact Or.inr ⟨f1.trans f2, strLtB_le_trans _ _ _ g1 g2⟩⟩

theorem counterStep_keys (c : List (String × Nat)) (tok t : String)
    (h : ((if c.any (fun p => p.1 == tok) then
        c.map (fun p => if p.1 == tok then (p.1, p.2 + 1) else p)
      else c ++ [(tok, 1)]).any (fun p => p.1 == t)) = true) :
    c.any (fun p => p.1 == t) = true ∨ t = tok := by
  split at h
  · left
    rcases List.any_eq_true.mp h with ⟨x, hx, hpx⟩
    rcases List.mem_map.mp hx with ⟨y, hy, hyx⟩
    refine List.any_eq_true.mpr ⟨y, hy, ?_⟩
    have : x.1 = y.1 := by
      rw [← hyx]
      split <;> rfl
    rw [← this]
    exact hpx
  · rcases List.any_eq_true.mp h with ⟨x, hx, hpx⟩
    rcases List.mem_append.mp hx with hx | hx
    · exact Or.inl (List.any_eq_true.mpr ⟨x, hx, hpx⟩)
    · simp only [List.mem_singleton] at hx
      subst hx
      simp only [beq_iff_eq] at hpx
      exact Or.inr hpx.symm

theorem counterUpdate_keys (tokens : List String) (c : List (String × Nat)) (t : String)
    (h : (counterUpdate c tokens).any (fun p => p.1 == t) = true) :
    c.any (fun p => p.1 == t) = true ∨ t ∈ tokens := by
  induction tokens generalizing c with
  | nil => exact Or.inl h
  | cons tok rest ih =>
      unfold counterUpdate at h
      simp only [List.foldl_cons] at h
      rcases ih _ h with hs | hs
      · rcases counterStep_keys c tok t hs with hc | hc
        · exact Or.inl hc
        · exact Or.inr (hc ▸ List.mem_cons_self tok rest)
      · exact Or.inr (List.mem_cons_of_mem tok hs)

theorem kwCounterOver_keys (sk ek : List Nat) (ds : List Document) (t : String)
    (h : ((kwCounterOver sk ek ds).any (fun p => p.1 == t)) = true) :
    ∃ d ∈ ds, ∃ enc, d.ocr_text = some enc ∧ enc ≠ "" ∧
      t ∈ tokenizeWith autoTaggingStopwords (decrypt_text sk ek enc) := by
  have gen : ∀ (l : List Document) (c : List (String × Nat)),
      ((l.foldl (fun c d =>
        match d.ocr_text with
        | none => c
        | some enc =>
            if enc = "" then c
            else counterUpdate c (tokenizeWith autoTaggingStopwords (decrypt_text sk ek enc))) c).any
        (fun p => p.1 == t)) = true →
      c.any (fun p => p.1 == t) = true ∨
        ∃ d ∈ l, ∃ enc, d.ocr_text = some enc ∧ enc ≠ "" ∧
          t ∈ tokenizeWith autoTaggingStopwords (decrypt_text sk ek enc) := by
    intro l
    induction l with
    | nil => exact fun c hc => Or.inl hc
    | cons d rest ih =>
        intro c hc
        simp only [List.foldl_cons] at hc
        rcases ih _ hc with hs | ⟨d', hd', henc⟩
        · cases hocr : d.ocr_text with
          | none =>
              simp only [hocr] at hs
              exact Or.inl hs
          | some enc =>
              simp only [hocr] at hs
              by_cases he : enc = ""
              · rw [if_pos he] at hs
                exact Or.inl hs
              · rw [if_neg he] at hs
                rcases counterUpdate_keys _ _ _ hs with hc2 | hc2
                · exact Or.inl hc2
                · exact Or.inr ⟨d, List.mem_cons_self d rest, enc, hocr, he, hc2⟩
        · exact Or.inr ⟨d', List.mem_cons_of_mem d hd', henc⟩
  rcases gen ds [] h with hc | hres
  · exact absurd hc (by simp)
  · exact hres

theorem mem_kwDocsWithOcr (docs : List Document) (uid cid : Nat) (d : Document) :
    d ∈ kwDocsWithOcr docs uid cid ↔
      d ∈ docs ∧ d.owner_user_id = uid ∧ d.category_id = some cid ∧ d.ocr_text.isSome := by
  unfold kwDocsWithOcr
  rw [List.mem_filter]
  simp [Bool.and_eq_true, beq_iff_eq, and_assoc]

/-- C8 amended: for an owned category, suggest_keywords_for_category returns
at most top_n tokens drawn from the decrypted OCR text of the owner's
documents in that category that have OCR text — soft-deleted documents
included, since the query has no is_deleted filter; each suggested token is
not among the category's existing keywords (case-insensitively), carries a
positive score equal to score_keyword of its corpus frequency, and the
candidate list is sorted by (score desc, frequency desc, token asc). -/
theorem C8_keyword_suggestions (sk ek : List Nat) (cats : List Category)
    (docs : List Document) (uid cid topn : Nat) (out : KeywordSuggestionOut)
    (h : suggest_keywords_for_category sk ek cats docs uid cid topn = some out) :
    ∃ category, cats.find? (fun c => c.id == cid && c.user_id == uid) = some category ∧
      out.existing_keywords = kwExisting category ∧
      out.suggested_keywords
        = ((kwSorted sk ek category docs uid cid).take topn).map (fun p => p.1) ∧
      List.Sorted kwSuggLE (kwSorted sk ek category docs uid cid) ∧
      out.suggested_keywords.length ≤ topn ∧
      (∀ t ∈ out.suggested_keywords,
        ¬ (pyLower t) ∈ ((kwExisting category).map pyLower) ∧
        (∃ s cnt, (t, s, cnt) ∈ kwScored sk ek category docs uid cid ∧
          s = score_keyword t cnt ∧ 0 < s) ∧
        ∃ d ∈ docs, d.owner_user_id = uid ∧ d.category_id = some cid ∧
          ∃ enc, d.ocr_text = some enc ∧ enc ≠ "" ∧
            t ∈ tokenizeWith autoTaggingStopwords (decrypt_text sk ek enc)) := by
  cases hfind : cats.find? (fun c => c.id == cid && c.user_id == uid) with
  | none => simp [suggest_keywords_for_category, hfind] at h
  | some category =>
      simp only [suggest_keywords_for_category, hfind] at h
      have h2 := Option.some.inj h
      subst h2
      refine ⟨category, rfl, rfl, rfl, List.sorted_insertionSort kwSuggLE _, ?_, ?_⟩
      · simp only [List.length_map, List.length_take]
        omega
      · intro t ht
        simp only at ht
        rcases List.mem_map.mp ht with ⟨p, hp, hpt⟩
        have hpsorted : p ∈ kwSorted sk ek category docs uid cid := List.mem_of_mem_take hp
        have hpmem : p ∈ kwScored sk ek category docs uid cid := by
          unfold kwSorted at hpsorted
          exact (List.mem_insertionSort kwSuggLE).mp hpsorted
        have hpscored := hpmem
        unfold kwScored kwScoredOver at hpscored
        rcases List.mem_filterMap.mp hpscored with ⟨q, hq, hqp⟩
        have hqkey : ¬ ((kwExisting category).map pyLower).contains (pyLower q.1) = true ∧
            ¬ score_keyword q.1 q.2 ≤ 0 ∧ p = (q.1, score_keyword q.1 q.2, q.2) := by
          by_cases hc1 : ((kwExisting category).map pyLower).contains (pyLower q.1) = true
          · rw [if_pos hc1] at hqp
            exact absurd hqp (by simp)
          · rw [if_neg hc1] at hqp
            simp only at hqp
            by_cases hc2 : score_keyword q.1 q.2 ≤ 0
            · rw [if_pos hc2] at hqp
              exact absurd hqp (by simp)
            · rw [if_neg hc2] at hqp
              exact ⟨hc1, hc2, (Option.some.inj hqp).symm⟩
        obtain ⟨hnotex, hpos, hpq⟩ := hqkey
        have htq : t = q.1 := by rw [← hpt, hpq]
        refine ⟨?_, ?_, ?_⟩
        · intro hmem
          rw [htq] at hmem
          exact hnotex (List.elem_eq_true_of_mem hmem)
        · refine ⟨score_keyword q.1 q.2, q.2, ?_, by rw [htq], by omega⟩
          rw [htq, ← hpq]
          exact hpmem
        · have hkey : ((kwCounter sk ek docs uid cid).any (fun p => p.1 == t)) = true :=
            List.any_eq_true.mpr ⟨q, hq, by simp [htq]⟩
          unfold kwCounter at hkey
          rcases kwCounterOver_keys sk ek _ t hkey with ⟨d, hd, enc, hocr, hne, htok⟩
          rcases (mem_kwDocsWithOcr docs uid cid d).mp hd with ⟨hdd, hown, hcat, -⟩
          exact ⟨d, hdd, hown, hcat, enc, hocr, hne, htok⟩

/-- The C8 counterexample category: it already has keyword "rechnung". -/
def cex8Cat : Category :=
  { id := 1, user_id := 1, name := "Rechnungen", keywords := some "rechnung" }

/-- A live document of the category whose OCR mentions "lieferant". -/
def cex8Doc1 : Document :=
  { id := 1, owner_user_id := 1, filename := "x", category_id := some 1,
    ocr_text := some "lieferant lieferant rechnung" }

/-- A SOFT-DELETED document of the category whose OCR mentions "storniert". -/
def cex8Doc2 : Document :=
  { id := 2, owner_user_id := 1, filename := "y", category_id := some 1,
    ocr_text := some "storniert storniert", is_deleted := true }

/-- C8 counterexample: the claim restricts the corpus to non-deleted
documents, but the code's query has no is_deleted filter: the token
"storniert", which occurs only in the soft-deleted document, appears in the
code's suggestions, while the claim-reading pipeline (suggest_keywords_spec)
omits it.  The existing keyword "rechnung" is absent from both, as claimed. -/
theorem C8_counterexample :
    cex8Doc2.is_deleted = true ∧
    (suggest_keywords_for_category [] [] [cex8Cat] [cex8Doc1, cex8Doc2] 1 1 15).map
      (fun o => o.suggested_keywords) = some ["lieferant", "storniert"] ∧
    (suggest_keywords_spec [] [] [cex8Cat] [cex8Doc1, cex8Doc2] 1 1 15).map
      (fun o => o.suggested_keywords) = some ["lieferant"] := by
  refine ⟨rfl, by decide, by decide⟩

/-- C8 witness: the amended theorem at the concrete counterexample store. -/
theorem C8_keyword_suggestions_witness :
    ∃ out, suggest_keywords_for_category [] [] [cex8Cat] [cex8Doc1, cex8Doc2] 1 1 15
        = some out ∧
      ∃ category, ([cex8Cat] : List Category).find?
          (fun c => c.id == 1 && c.user_id == 1) = some category := by
  cases hout : suggest_keywords_for_category [] [] [cex8Cat] [cex8Doc1, cex8Doc2] 1 1 15 with
  | none => exact absurd hout (by decide)
  | some out =>
      rcases C8_keyword_suggestions [] [] [cex8Cat] [cex8Doc1, cex8Doc2] 1 1 15 out hout with
        ⟨category, hcat, -⟩
      exact ⟨out, rfl, category, hcat⟩

/-! C10: tag determinism versus ciphertext freshness.  The key fact is that
url-safe base64 encoding round-trips, and that the 16 IV bytes sit at a
fixed offset of the raw Fernet token, so distinct fresh IVs force distinct
ciphertexts. -/

theorem b64IndexB_b64Val : ∀ n, n < 64 → b64IndexB (b64Val n) = some n := by decide

theorem b64Val_ne_61 : ∀ n, n < 64 → b64Val n ≠ 61 := by decide

theorem b64Keep_b64Val (n : Nat) (h : n < 64) :
    ((b64IndexB (b64Val n)).isSome || b64Val n = 61) = true := by
  rw [b64IndexB_b64Val n h]
  rfl

theorem b64Encode_filter : ∀ bs : List Nat,
    (b64Encode bs).filter (fun c => (b64IndexB c).isSome || c = 61) = b64Encode bs
  | [] => rfl
  | [a] => by
      have k1 := b64Keep_b64Val (a % 256 / 4) (by omega)
      have k2 := b64Keep_b64Val (a % 256 % 4 * 16) (by omega)
      simp [b64Encode, List.filter_cons, k1, k2]
  | [a, b] => by
      have k1 := b64Keep_b64Val (a % 256 / 4) (by omega)
      have k2 := b64Keep_b64Val (a % 256 % 4 * 16 + b % 256 / 16) (by omega)
      have k3 := b64Keep_b64Val (b % 256 % 16 * 4) (by omega)
      simp [b64Encode, List.filter_cons, k1, k2, k3]
  | a :: b :: c :: rest => by
      have k1 := b64Keep_b64Val (a % 256 / 4) (by omega)
      have k2 := b64Keep_b64Val (a % 256 % 4 * 16 + b % 256 / 16) (by omega)
      have k3 := b64Keep_b64Val (b % 256 % 16 * 4 + c % 256 / 64) (by omega)
      have k4 := b64Keep_b64Val (c % 256 % 64) (by omega)
      have ih := b64Encode_filter rest
      simp [b64Encode, List.filter_cons, List.filter_append, k1, k2, k3, k4, ih]

theorem b64DecodeGroups_encode : ∀ bs : List Nat, (∀ x ∈ bs, x < 256) →
    b64DecodeGroups (b64Encode bs) = some bs
  | [], _ => rfl
  | [a], h => by
      have ha : a < 256 := h a (by simp)
      have h1 := b64IndexB_b64Val (a % 256 / 4) (by omega)
      have h2 := b64IndexB_b64Val (a % 256 % 4 * 16) (by omega)
      simp only [b64Encode, b64DecodeGroups, Option.bind_eq_bind, Option.some_bind,
        h1, h2, if_pos rfl, and_self, if_true]
      have e1 : a % 256 / 4 * 4 + a % 256 % 4 * 16 / 16 = a := by omega
      rw [e1]
      rfl
  | [a, b], h => by
      have ha : a < 256 := h a (by simp)
      have hb : b < 256 := h b (by simp)
      have h1 := b64IndexB_b64Val (a % 256 / 4) (by omega)
      have h2 := b64IndexB_b64Val (a % 256 % 4 * 16 + b % 256 / 16) (by omega)
      have h3 := b64IndexB_b64Val (b % 256 % 16 * 4) (by omega)
      have hn3 := b64Val_ne_61 (b % 256 % 16 * 4) (by omega)
      simp only [b64Encode, b64DecodeGroups, Option.bind_eq_bind, Option.some_bind,
        h1, h2, h3, if_neg hn3, if_pos rfl, if_true]
      have e1 : a % 256 / 4 * 4 + (a % 256 % 4 * 16 + b % 256 / 16) / 16 = a := by omega
      have e2 : (a % 256 % 4 * 16 + b % 256 / 16) % 16 * 16 + b % 256 % 16 * 4 / 4 = b := by
        omega
      rw [e1, e2]
      rfl
  | a :: b :: c :: rest, h => by
      have ha : a < 256 := h a (by simp)
      have hb : b < 256 := h b (by simp)
      have hc : c < 256 := h c (by simp)
      have h1 := b64IndexB_b64Val (a % 256 / 4) (by omega)
      have h2 := b64IndexB_b64Val (a % 256 % 4 * 16 + b % 256 / 16) (by omega)
      have h3 := b64IndexB_b64Val (b % 256 % 16 * 4 + c % 256 / 64) (by omega)
      have h4 := b64IndexB_b64Val (c % 256 % 64) (by omega)
      have hn3 := b64Val_ne_61 (b % 256 % 16 * 4 + c % 256 / 64) (by omega)
      have hn4 := b64Val_ne_61 (c % 256 % 64) (by omega)
      have ih := b64DecodeGroups_encode rest
        (fun x hx => h x (by simp [hx]))
      simp only [b64Encode, b64DecodeGroups, Option.bind_eq_bind, Option.some_bind,
        h1, h2, h3, h4, if_neg hn3, if_neg hn4, List.append_eq, List.nil_append]
      rw [ih]
      have e1 : a % 256 / 4 * 4 + (a % 256 % 4 * 16 + b % 256 / 16) / 16 = a := by omega
      have e2 : (a % 256 % 4 * 16 + b % 256 / 16) % 16 * 16 +
          (b % 256 % 16 * 4 + c % 256 / 64) / 4 = b := by omega
      have e3 : (b % 256 % 16 * 4 + c % 256 / 64) % 4 * 64 + c % 256 % 64 = c := by omega
      rw [e1, e2, e3]
      rfl

/-- Url-safe base64 round-trips on byte lists. -/
theorem b64_roundtrip (bs : List Nat) (h : ∀ x ∈ bs, x < 256) :
    b64Decode (b64Encode bs) = some bs := by
  unfold b64Decode
  rw [b64Encode_filter]
  exact b64DecodeGroups_encode bs h

theorem mem_wordToBytes_lt (w x : Nat) (h : x ∈ wordToBytes w) : x < 256 := by
  unfold wordToBytes at h
  simp only [List.mem_cons, List.not_mem_nil, or_false] at h
  rcases h with h | h | h | h <;> omega

theorem mem_sha256_lt (msg : List Nat) : ∀ x ∈ sha256 msg, x < 256 := by
  intro x hx
  unfold sha256 at hx
  rcases List.mem_flatMap.mp hx with ⟨w, -, hw⟩
  exact mem_wordToBytes_lt w x hw

theorem mem_zipWith_byteXor_lt : ∀ (l1 l2 : List Nat) (x : Nat),
    x ∈ List.zipWith byteXor l1 l2 → x < 256 := by
  intro l1
  induction l1 with
  | nil => intro l2 x hx; simp at hx
  | cons a as ih =>
      intro l2 x hx
      cases l2 with
      | nil => simp at hx
      | cons b bs =>
          simp only [List.zipWith_cons_cons, List.mem_cons] at hx
          rcases hx with hx | hx
          · rw [hx]; exact Nat.mod_lt _ (by omega)
          · exact ih bs x hx

theorem mem_aesEncryptBlock_lt (key block : List Nat) (x : Nat)
    (h : x ∈ aesEncryptBlock key block) : x < 256 := by
  unfold aesEncryptBlock at h
  exact mem_zipWith_byteXor_lt _ _ x h

theorem cbcEncryptGo_nil (key prev : List Nat) : cbcEncryptGo key prev [] = [] := rfl

theorem cbcEncryptGo_cons (key prev b : List Nat) (rest : List (List Nat)) :
    cbcEncryptGo key prev (b :: rest)
      = aesEncryptBlock key (List.zipWith byteXor b prev)
        ++ cbcEncryptGo key (aesEncryptBlock key (List.zipWith byteXor b prev)) rest := rfl

theorem mem_cbcEncryptGo_lt (key : List Nat) :
    ∀ (blocks : List (List Nat)) (prev : List Nat) (x : Nat),
    x ∈ cbcEncryptGo key prev blocks → x < 256 := by
  intro blocks
  induction blocks with
  | nil =>
      intro prev x hx
      rw [cbcEncryptGo_nil] at hx
      exact absurd hx (List.not_mem_nil x)
  | cons b rest ih =>
      intro prev x hx
      rw [cbcEncryptGo_cons, List.mem_append] at hx
      rcases hx with hx | hx
      · exact mem_aesEncryptBlock_lt _ _ x hx
      · exact ih _ x hx

theorem mem_fernetTokenRaw_lt (sk ek : List Nat) (ts : Nat) (iv p : List Nat) :
    ∀ x ∈ fernetTokenRaw sk ek ts iv p, x < 256 := by
  intro x hx
  unfold fernetTokenRaw cbcEncrypt at hx
  simp only [List.cons_append, List.mem_cons, List.mem_append] at hx
  rcases hx with hx | hx
  · omega
  rcases hx with hx | hx
  · rcases hx with hx | hx
    · rcases hx with hx | hx
      · unfold be64 at hx
        rcases List.mem_map.mp hx with ⟨i, -, hi⟩
        omega
      · rcases List.mem_map.mp hx with ⟨b, -, hb⟩
        omega
    · exact mem_cbcEncryptGo_lt ek _ _ x hx
  · exact mem_sha256_lt _ x hx

theorem be64_length (ts : Nat) : (be64 ts).length = 8 := by
  simp [be64]

/-- The 16 IV bytes sit at offset 9 of the raw token. -/
theorem fernetTokenRaw_iv (sk ek : List Nat) (ts : Nat) (iv p : List Nat)
    (hlen : iv.length = 16) :
    ((fernetTokenRaw sk ek ts iv p).drop 9).take 16 = iv.map (· % 256) := by
  unfold fernetTokenRaw
  have hshape : (128 :: (be64 ts ++ iv.map (· % 256) ++ cbcEncrypt ek iv (pkcs7pad p)))
        ++ hmacSha256 sk (128 :: (be64 ts ++ iv.map (· % 256) ++ cbcEncrypt ek iv (pkcs7pad p)))
      = (128 :: be64 ts) ++ (iv.map (· % 256)
        ++ (cbcEncrypt ek iv (pkcs7pad p)
          ++ hmacSha256 sk (128 :: (be64 ts ++ iv.map (· % 256)
            ++ cbcEncrypt ek iv (pkcs7pad p))))) := by
    simp [List.cons_append, List.append_assoc]
  rw [hshape]
  have hl9 : (128 :: be64 ts).length = 9 := by simp [be64_length]
  rw [List.drop_left' hl9, List.take_left' (by simp [hlen])]

/-- Map by a function that fixes every element of the list. -/
theorem map_mod_of_lt (l : List Nat) (h : ∀ x ∈ l, x < 256) : l.map (· % 256) = l := by
  induction l with
  | nil => rfl
  | cons a as ih =>
      simp only [List.map_cons, List.cons.injEq]
      exact ⟨Nat.mod_eq_of_lt (h a (by simp)),
        ih (fun x hx => h x (List.mem_cons_of_mem a hx))⟩

/-- C10: compute_integrity_tag is a pure function of the plaintext — any two
calls agree — while encrypt_bytes draws a fresh 16-byte IV per call, and two
calls with different IVs necessarily produce different ciphertexts (the IV
is embedded at a fixed offset of the base64-decoded token). -/
theorem C10_crypto_determinism (c1 c2 : CallCtx) (secret sk ek p : List Nat)
    (hl1 : c1.iv.length = 16) (hl2 : c2.iv.length = 16)
    (hb1 : ∀ b ∈ c1.iv, b < 256) (hb2 : ∀ b ∈ c2.iv, b < 256)
    (hne : c1.iv ≠ c2.iv) :
    compute_integrity_tag_call c1 secret p = compute_integrity_tag_call c2 secret p ∧
    encrypt_bytes sk ek c1 p ≠ encrypt_bytes sk ek c2 p := by
  refine ⟨rfl, ?_⟩
  intro heq
  unfold encrypt_bytes at heq
  have h1 := b64_roundtrip (fernetTokenRaw sk ek c1.ts c1.iv p)
    (mem_fernetTokenRaw_lt sk ek c1.ts c1.iv p)
  have h2 := b64_roundtrip (fernetTokenRaw sk ek c2.ts c2.iv p)
    (mem_fernetTokenRaw_lt sk ek c2.ts c2.iv p)
  rw [heq] at h1
  rw [h2] at h1
  have htok := Option.some.inj h1
  have hiv : c2.iv.map (· % 256) = c1.iv.map (· % 256) := by
    rw [← fernetTokenRaw_iv sk ek c1.ts c1.iv p hl1,
      ← fernetTokenRaw_iv sk ek c2.ts c2.iv p hl2, htok]
  rw [map_mod_of_lt c2.iv hb2, map_mod_of_lt c1.iv hb1] at hiv
  exact hne hiv.symm

/-- Concrete call contexts for the C10 witness. -/
def cexCtx1 : CallCtx := { ts := 499162800, iv := List.range 16 }

/-- A second context differing from the first only in the fresh IV. -/
def cexCtx2 : CallCtx := { ts := 499162800, iv := (List.range 16).map (fun i => i + 1) }

/-- C10 witness: the theorem applied at two concrete contexts with distinct
fresh IVs. -/
theorem C10_crypto_determinism_witness :
    cexCtx1.iv.length = 16 ∧ cexCtx1.iv ≠ cexCtx2.iv ∧
    compute_integrity_tag_call cexCtx1 [0] [1, 2, 3]
        = compute_integrity_tag_call cexCtx2 [0] [1, 2, 3] ∧
    encrypt_bytes [0] [0] cexCtx1 [1, 2, 3] ≠ encrypt_bytes [0] [0] cexCtx2 [1, 2, 3] := by
  have main := C10_crypto_determinism cexCtx1 cexCtx2 [0] [0] [0] [1, 2, 3]
    (by decide) (by decide) (by decide) (by decide) (by decide)
  exact ⟨by decide, by decide, main.1, main.2⟩

/-! C1: what the two persistence paths actually write.  upload_document
writes the Fernet ciphertext and stores the HMAC tag; upload_new_version
writes the raw uploaded bytes and stores a plain SHA-256 hexdigest. -/

/-- The length of a flatMap whose pieces all have length k. -/
theorem flatMap_fixed_length {α β : Type} (f : α → List β) (k : Nat)
    (hf : ∀ a, (f a).length = k) : ∀ l : List α, (l.flatMap f).length = k * l.length
  | [] => by simp
  | a :: as => by
      simp only [List.flatMap_cons, List.length_append, hf a,
        flatMap_fixed_length f k hf as, List.length_cons, Nat.mul_succ]
      omega

theorem sha256Round_length (st : List Nat) (kw : Nat × Nat) :
    (sha256Round st kw).length = st.length := by
  unfold sha256Round
  split
  · rfl
  · rfl

theorem foldl_sha256Round_length (l : List (Nat × Nat)) (st : List Nat) :
    (l.foldl sha256Round st).length = st.length := by
  induction l generalizing st with
  | nil => rfl
  | cons a as ih => rw [List.foldl_cons, ih, sha256Round_length]

theorem sha256Chunk_length (h c : List Nat) : (sha256Chunk h c).length = h.length := by
  simp only [sha256Chunk]
  rw [List.length_map, List.length_zip, foldl_sha256Round_length, Nat.min_self]

theorem foldl_sha256Chunk_length (cs : List (List Nat)) (h : List Nat) :
    (cs.foldl sha256Chunk h).length = h.length := by
  induction cs generalizing h with
  | nil => rfl
  | cons c cs ih => rw [List.foldl_cons, ih, sha256Chunk_length]

/-- SHA-256 digests are always 32 bytes. -/
theorem sha256_length (msg : List Nat) : (sha256 msg).length = 32 := by
  simp only [sha256]
  rw [flatMap_fixed_length wordToBytes 4 (fun w => rfl) _, foldl_sha256Chunk_length]
  decide

theorem hexDigest_length (bs : List Nat) : (hexDigest bs).length = 2 * bs.length := by
  unfold hexDigest
  show (bs.flatMap byteToHex).length = 2 * bs.length
  exact flatMap_fixed_length byteToHex 2 (fun b => rfl) bs

/-- The integrity tag is a 64-character hex string, never empty. -/
theorem compute_integrity_tag_ne (secret p : List Nat) :
    compute_integrity_tag secret p ≠ "" := by
  intro h
  have hm : (hmacSha256 secret p).length = 32 := by
    simp only [hmacSha256]
    exact sha256_length _
  have h64 : (compute_integrity_tag secret p).length = 64 := by
    unfold compute_integrity_tag
    rw [hexDigest_length, hm]
  rw [h] at h64
  exact absurd h64 (by decide)

/-- The version path's plain SHA-256 hexdigest is never empty. -/
theorem sha256_of_stream_ne (q : List Nat) : sha256_of_stream q ≠ "" := by
  intro h
  have h64 : (sha256_of_stream q).length = 64 := by
    unfold sha256_of_stream
    rw [hexDigest_length, sha256_length]
  rw [h] at h64
  exact absurd h64 (by decide)

/-- Every Fernet ciphertext starts with the base64 character of the 0x80
version byte, the letter g (103). -/
theorem encrypt_bytes_head (sk ek : List Nat) (ctx : CallCtx) (p : List Nat) :
    (encrypt_bytes sk ek ctx p).headD 0 = 103 := rfl

/-- The document state used by the C1 version-upload scenario. -/
def c1St : DocState :=
  { doc := { id := 5, owner_user_id := 1, filename := "a.pdf",
             storage_path := "./data/files/1/s.bin", size_bytes := 3,
             mime_type := some "application/pdf" }
    versions := [{ document_id := 5, version_number := 1,
                   storage_path := "./data/files/1/s.bin" }] }

/-- A fixed call context for the C1 scenario. -/
def c1Ctx : CallCtx := { ts := 0, iv := List.replicate 16 0 }

/-- C1: the claim that every persistence path writes encrypt_bytes
ciphertext is false — upload_new_version writes the uploaded plaintext
itself to the files directory (the bytes written are exactly [1, 2, 3]),
and no encrypt_bytes output can equal that plaintext, its first byte being
the base64 version character. -/
theorem C1_counterexample :
    (upload_new_version c1St 1 [1, 2, 3] none "v2.bin").map (fun r => r.written)
        = some [1, 2, 3] ∧
    encrypt_bytes [0] [0] c1Ctx [1, 2, 3] ≠ [1, 2, 3] := by
  refine ⟨rfl, fun h => ?_⟩
  have hh := encrypt_bytes_head [0] [0] c1Ctx [1, 2, 3]
  rw [h] at hh
  exact absurd hh (by decide)

/-- C1: amended data flow — the initial-upload path does write the
encrypt_bytes ciphertext and store the HMAC integrity tag of the plaintext,
but the add-version path writes the raw uploaded bytes unencrypted and
stores a plain unkeyed SHA-256 hexdigest instead. -/
theorem C1_crypto_envelope (sk ek secret : List Nat) (ctx : CallCtx)
    (doc_id user_id : Nat) (name : String) (p : List Nat) (ct g : Option String)
    (stored : String) (out : UploadOutcome)
    (h : upload_document sk ek secret ctx doc_id user_id name p ct g stored = some out)
    (st : DocState) (vuser : Nat) (q : List Nat) (note : Option String)
    (dn : String) (vout : VersionUploadOutcome)
    (hv : upload_new_version st vuser q note dn = some vout) :
    out.written = encrypt_bytes sk ek ctx p ∧
    out.state.doc.checksum_sha256 = some (compute_integrity_tag secret p) ∧
    vout.written = q ∧
    vout.ver.checksum_sha256 = some (sha256_of_stream q) := by
  simp only [upload_document] at h
  split at h
  · exact absurd h (by simp)
  · have hout := (Option.some.inj h).symm
    simp only [upload_new_version] at hv
    split at hv
    · exact absurd hv (by simp)
    · have hvout := (Option.some.inj hv).symm
      subst hout
      subst hvout
      refine ⟨rfl, ?_, rfl, ?_⟩
      · simp only [create_document_with_version, orNone]
        rw [if_neg (compute_integrity_tag_ne secret p)]
      · simp only [save_stream_to_file, add_version, orNone]
        rw [if_neg (sha256_of_stream_ne q)]

/-- The concrete upload_document outcome of the C1 witness scenario. -/
def c1Out : UploadOutcome :=
  { target_path := "./data/files/" ++ toString 1 ++ "/" ++ "s.bin"
    written := encrypt_bytes [0] [0] c1Ctx [1, 2, 3]
    state := create_document_with_version 5 1 "a.pdf"
      ("./data/files/" ++ toString 1 ++ "/" ++ "s.bin") 3
      (some (compute_integrity_tag [0] [1, 2, 3])) none
      (some "Initial upload") (some "a.pdf") (some "s.bin") }

/-- The concrete upload_new_version outcome of the C1 witness scenario. -/
def c1VOut : VersionUploadOutcome :=
  { target_path := "./data/files/" ++ toString 1 ++ "/" ++ "v2.bin"
    written := [1, 2, 3]
    state := (add_version c1St ("./data/files/" ++ toString 1 ++ "/" ++ "v2.bin") 3
      (some (sha256_of_stream [1, 2, 3])) c1St.doc.mime_type (some "Content updated")).1
    ver := (add_version c1St ("./data/files/" ++ toString 1 ++ "/" ++ "v2.bin") 3
      (some (sha256_of_stream [1, 2, 3])) c1St.doc.mime_type (some "Content updated")).2 }

/-- C1 witness: the amended theorem at a concrete three-byte upload. -/
theorem C1_crypto_envelope_witness :
    c1Out.written = encrypt_bytes [0] [0] c1Ctx [1, 2, 3] ∧
    c1Out.state.doc.checksum_sha256 = some (compute_integrity_tag [0] [1, 2, 3]) ∧
    c1VOut.written = [1, 2, 3] ∧
    c1VOut.ver.checksum_sha256 = some (sha256_of_stream [1, 2, 3]) :=
  C1_crypto_envelope [0] [0] [0] c1Ctx 5 1 "a.pdf" [1, 2, 3] none none "s.bin" c1Out rfl
    c1St 1 [1, 2, 3] none "v2.bin" c1VOut rfl

/-! C5: the bounded-batch purge loop deletes exactly the expired
soft-deleted documents and cascades to their versions. -/

theorem contains_append_ids (l1 l2 : List Nat) (x : Nat) :
    (l1 ++ l2).contains x = (l1.contains x || l2.contains x) := by
  simp [List.elem_eq_mem, List.mem_append]

/-- Filtering out the keys of a prefix, from a list whose suffix is
key-disjoint from that prefix, leaves the suffix. -/
theorem filter_not_ids_append (t r : List TrashDoc)
    (hdisj : ∀ d ∈ r, d.id ∉ t.map (fun d => d.id)) :
    (t ++ r).filter (fun d => !(t.map (fun d => d.id)).contains d.id) = r := by
  rw [List.filter_append]
  have h1 : t.filter (fun d => !(t.map (fun d => d.id)).contains d.id) = [] := by
    rw [List.filter_eq_nil_iff]
    intro d hd
    have hm : d.id ∈ t.map (fun d => d.id) := List.mem_map.mpr ⟨d, hd, rfl⟩
    simp [List.elem_eq_mem, hm]
  have h2 : r.filter (fun d => !(t.map (fun d => d.id)).contains d.id) = r := by
    rw [List.filter_eq_self]
    intro d hd
    simp [List.elem_eq_mem, hdisj d hd]
  rw [h1, h2, List.nil_append]

/-- On a list with pairwise-distinct keys, filtering out the keys of the
first n elements is dropping the first n elements. -/
theorem filter_not_take_ids (n : Nat) (l : List TrashDoc)
    (hnd : (l.map (fun d => d.id)).Nodup) :
    l.filter (fun d => !((l.take n).map (fun d => d.id)).contains d.id) = l.drop n := by
  have hdisj : ∀ d ∈ l.drop n, d.id ∉ (l.take n).map (fun d => d.id) := by
    intro d hd hmem
    have h1 : d.id ∈ (l.map (fun d => d.id)).drop n := by
      rw [← List.map_drop]
      exact List.mem_map.mpr ⟨d, hd, rfl⟩
    have h2 : d.id ∈ (l.map (fun d => d.id)).take n := by
      rw [← List.map_take]
      exact hmem
    have hnd2 : ((l.map (fun d => d.id)).take n ++ (l.map (fun d => d.id)).drop n).Nodup := by
      rw [List.take_append_drop]
      exact hnd
    rcases List.nodup_append.mp hnd2 with ⟨-, -, hdisj2⟩
    exact hdisj2 h2 h1
  have h := filter_not_ids_append (l.take n) (l.drop n) hdisj
  rw [List.take_append_drop] at h
  exact h

/-- The purge loop, given enough fuel and pairwise-distinct document ids,
removes exactly the expired documents, counts them, and drops exactly the
version rows belonging to them. -/
theorem purgeLoop_spec (now days batch : Nat) (hb : 0 < batch) :
    ∀ (f : Nat) (st : TrashState),
    (st.docs.map (fun d => d.id)).Nodup →
    (st.docs.filter (trashExpired now days)).length < f →
    (purgeLoop now days batch f st).1.docs
        = st.docs.filter (fun d => !trashExpired now days d) ∧
    (purgeLoop now days batch f st).2
        = (st.docs.filter (trashExpired now days)).length ∧
    (purgeLoop now days batch f st).1.versions
        = st.versions.filter (fun v =>
            !((st.docs.filter (trashExpired now days)).map (fun d => d.id)).contains
              v.document_id) := by
  intro f
  induction f with
  | zero => intro st _ hlt; exact absurd hlt (Nat.not_lt_zero _)
  | succ f ih =>
      intro st hnd hlt
      by_cases hex : st.docs.filter (trashExpired now days) = []
      · have hall : ∀ d ∈ st.docs, trashExpired now days d = false := by
          intro d hd
          by_contra hc
          have hmem : d ∈ st.docs.filter (trashExpired now days) :=
            List.mem_filter.mpr ⟨hd, by simpa using hc⟩
          rw [hex] at hmem
          exact absurd hmem (List.not_mem_nil d)
        have h0 : (purgeBatch now days batch st).2 = 0 := by
          simp only [purgeBatch]
          rw [hex]
          simp
        simp only [purgeLoop]
        rw [if_pos h0]
        refine ⟨?_, ?_, ?_⟩
        · have hr : st.docs.filter (fun d => !trashExpired now days d) = st.docs :=
            List.filter_eq_self.mpr (fun d hd => by rw [hall d hd]; rfl)
          rw [hr]
          simp only [purgeBatch]
          rw [hex]
          apply List.filter_eq_self.mpr
          intro d hd
          simp only [List.take_nil, List.map_nil]
          rfl
        · rw [hex]
          rfl
        · simp only [purgeBatch]
          rw [hex]
          simp
      · have hlen1 : 0 < (st.docs.filter (trashExpired now days)).length :=
          List.length_pos.mpr hex
        have hndEx : ((st.docs.filter (trashExpired now days)).map (fun d => d.id)).Nodup :=
          ((List.filter_sublist st.docs).map (fun d => d.id)).nodup hnd
        have hstep2 : (purgeBatch now days batch st).2
            = min batch (st.docs.filter (trashExpired now days)).length := by
          simp only [purgeBatch]
          rw [List.length_take]
        have hne0 : ¬ (purgeBatch now days batch st).2 = 0 := by
          rw [hstep2]
          omega
        have hdocs1 : (purgeBatch now days batch st).1.docs
            = st.docs.filter (fun d =>
                !(((st.docs.filter (trashExpired now days)).take batch).map
                  (fun d => d.id)).contains d.id) := by
          simp only [purgeBatch]
        have hvers1 : (purgeBatch now days batch st).1.versions
            = st.versions.filter (fun v =>
                !(((st.docs.filter (trashExpired now days)).take batch).map
                  (fun d => d.id)).contains v.document_id) := by
          simp only [purgeBatch]
        have hEx : (purgeBatch now days batch st).1.docs.filter (trashExpired now days)
            = (st.docs.filter (trashExpired now days)).drop batch := by
          rw [hdocs1, List.filter_comm]
          exact filter_not_take_ids batch _ hndEx
        have hnd' : ((purgeBatch now days batch st).1.docs.map (fun d => d.id)).Nodup := by
          rw [hdocs1]
          exact ((List.filter_sublist st.docs).map (fun d => d.id)).nodup hnd
        have hlt' : ((purgeBatch now days batch st).1.docs.filter
            (trashExpired now days)).length < f := by
          rw [hEx, List.length_drop]
          omega
        obtain ⟨ihd, ihc, ihv⟩ := ih (purgeBatch now days batch st).1 hnd' hlt'
        have hkeep : ∀ d ∈ st.docs.filter (fun d => !trashExpired now days d),
            (!(((st.docs.filter (trashExpired now days)).take batch).map
              (fun d => d.id)).contains d.id) = true := by
          intro d hd
          rcases List.mem_filter.mp hd with ⟨hdd, hne⟩
          by_contra hcon
          have hc2 : d.id ∈ ((st.docs.filter (trashExpired now days)).take batch).map
              (fun d => d.id) := by
            simpa [List.elem_eq_mem] using hcon
          rcases List.mem_map.mp hc2 with ⟨v, hv, hvid⟩
          have hvEx : v ∈ st.docs.filter (trashExpired now days) := List.mem_of_mem_take hv
          rcases List.mem_filter.mp hvEx with ⟨hvd, hvex⟩
          have hvd2 : v = d := List.inj_on_of_nodup_map hnd hvd hdd hvid
          rw [hvd2] at hvex
          rw [hvex] at hne
          exact absurd hne (by decide)
        simp only [purgeLoop]
        rw [if_neg hne0]
        refine ⟨?_, ?_, ?_⟩
        · show (purgeLoop now days batch f (purgeBatch now days batch st).1).1.docs = _
          rw [ihd, hdocs1, List.filter_comm]
          exact List.filter_eq_self.mpr hkeep
        · show (purgeBatch now days batch st).2
            + (purgeLoop now days batch f (purgeBatch now days batch st).1).2 = _
          rw [ihc, hEx, List.length_drop, hstep2]
          omega
        · show (purgeLoop now days batch f (purgeBatch now days batch st).1).1.versions = _
          rw [ihv, hEx, hvers1, List.filter_filter]
          apply List.filter_congr
          intro v hv
          have hsplit : ((st.docs.filter (trashExpired now days)).map (fun d => d.id))
              = ((st.docs.filter (trashExpired now days)).take batch).map (fun d => d.id)
                ++ ((st.docs.filter (trashExpired now days)).drop batch).map
                  (fun d => d.id) := by
            rw [← List.map_append, List.take_append_drop]
          rw [hsplit, contains_append_ids, Bool.not_or, Bool.and_comm]

/-- C5: Modelled from the spec: purge_expired_deleted_documents physically
deletes, in bounded batches, exactly the soft-deleted documents whose
deletion timestamp is older than the retention window, returns how many
documents it purged, and cascade-deletes exactly the version rows of the
purged documents; every other document and version row survives. -/
theorem C5_purge_expired (now days batch : Nat) (st : TrashState)
    (hb : 0 < batch) (hnd : (st.docs.map (fun d => d.id)).Nodup) :
    (purge_expired_deleted_documents now days batch st).1.docs
        = st.docs.filter (fun d => !trashExpired now days d) ∧
    (purge_expired_deleted_documents now days batch st).2
        = (st.docs.filter (trashExpired now days)).length ∧
    (purge_expired_deleted_documents now days batch st).1.versions
        = st.versions.filter (fun v =>
            !((st.docs.filter (trashExpired now days)).map (fun d => d.id)).contains
              v.document_id) :=
  purgeLoop_spec now days batch hb (st.docs.length + 1) st hnd
    (Nat.lt_succ_of_le (List.length_filter_le _ _))

/-- The trash table of the C5 witness: one expired soft-deleted document,
one recently deleted document, one live document, with a version row each. -/
def c5St : TrashState :=
  { docs := [{ id := 1, is_deleted := true, deleted_at := some 0 },
             { id := 2, is_deleted := true, deleted_at := some 4999999 },
             { id := 3, is_deleted := false, deleted_at := none }]
    versions := [{ document_id := 1, version_number := 1, storage_path := "p1" },
                 { document_id := 2, version_number := 1, storage_path := "p2" },
                 { document_id := 3, version_number := 1, storage_path := "p3" }] }

/-- C5 witness: the purge theorem at a concrete three-document table with
batch size 1, thirty-day window and a clock past the first expiry. -/
theorem C5_purge_expired_witness :
    (0 : Nat) < 1 ∧ (c5St.docs.map (fun d => d.id)).Nodup ∧
    ((purge_expired_deleted_documents 5000000 30 1 c5St).1.docs
        = c5St.docs.filter (fun d => !trashExpired 5000000 30 d) ∧
      (purge_expired_deleted_documents 5000000 30 1 c5St).2
        = (c5St.docs.filter (trashExpired 5000000 30)).length ∧
      (purge_expired_deleted_documents 5000000 30 1 c5St).1.versions
        = c5St.versions.filter (fun v =>
            !((c5St.docs.filter (trashExpired 5000000 30)).map (fun d => d.id)).contains
              v.document_id)) :=
  ⟨by decide, by decide, C5_purge_expired 5000000 30 1 c5St (by decide) (by decide)⟩

end DMS
